import Mathlib

/-!
Verification of the LawComparator repository (law_parser.py, law_comparator.py).

Python strings are modelled as `List Char`; Python `int` as `Int` (article
numbers) or `Nat` where the source only produces non-negative values; Python
`float` similarity scores as `ℚ` (the similarity arithmetic `2*M/T` is exact
rational arithmetic); Python dicts keyed by article number as association
lists in insertion order (a dict's keys are pairwise distinct, which becomes
a `Nodup` hypothesis where a theorem needs it).

The similarity engine used by the source is the Python standard library
`difflib.SequenceMatcher` / `difflib.Differ`; those are modelled here
faithfully (matching-block recursion, autojunk, junk-aware extension loops,
the Differ re-synchronisation pass) because the source's observable
behaviour depends on them.
-/

namespace LawRepo

/-! ### Python string primitives -/

/-- Python strings as lists of characters. -/
abbrev PyStr := List Char

/-- Whitespace as recognised by Python's `str.strip()` and the regex class
`\s` on the character repertoire this program processes (ASCII whitespace
plus the ideographic space U+3000 that appears in the statute texts). -/
def isPyWs (c : Char) : Bool :=
  c = ' ' || c = '\t' || c = '\n' || c = '\r' || c = '\x0b' || c = '\x0c' || c = '　'

/-- Python `str.strip()`. -/
def pstrip (s : PyStr) : PyStr :=
  ((s.dropWhile isPyWs).reverse.dropWhile isPyWs).reverse

/-- Python `text.split('\n')`. -/
def splitNL : PyStr → List PyStr
  | [] => [[]]
  | c :: cs =>
    if c = '\n' then [] :: splitNL cs
    else
      match splitNL cs with
      | [] => [[c]]
      | g :: gs => (c :: g) :: gs

/-- Python `'\n'.join(lines)`. -/
def joinNL (ls : List PyStr) : PyStr :=
  ls.intersperse ['\n'] |>.flatten

/-- Python `s.replace(c, r)` for a single-character needle `c`. -/
def replaceChar (s : PyStr) (c : Char) (r : PyStr) : PyStr :=
  s.flatMap (fun x => if x = c then r else [x])

/-! ### difflib.SequenceMatcher

Model of the standard library's sequence matcher over `List Char`, with an
explicit junk predicate (`isjunk=None` becomes the constantly-false
predicate) and the `autojunk` popularity filter. -/

/-- The constantly-false junk predicate (Python `isjunk=None`). -/
def noJunk : Char → Bool := fun _ => false

/-- `difflib.IS_CHARACTER_JUNK`: spaces and tabs are junk (the default
`charjunk` of `difflib.Differ`). -/
def isCharacterJunk (c : Char) : Bool := c = ' ' || c = '\t'

/-- The ascending list of positions of `c` in `b`. -/
def positionsOf (b : List Char) (c : Char) : List Nat :=
  (List.range b.length).filter (fun j => b.getD j ' ' = c)

/-- Autojunk of `SequenceMatcher.__chain_b`: when `len(b) >= 200`,
elements occurring more than `len(b) // 100 + 1` times are "popular" and
removed from `b2j`. -/
def isPopular (junk : Char → Bool) (b : List Char) (c : Char) : Bool :=
  200 ≤ b.length && !junk c && b.length / 100 + 1 < b.count c

/-- `b2j` of `SequenceMatcher`: positions of `c` in `b`, with junk and
popular elements removed. -/
def b2j (junk : Char → Bool) (b : List Char) (c : Char) : List Nat :=
  if junk c || isPopular junk b c then [] else positionsOf b c

/-- The running best match of `find_longest_match`. -/
structure FLMState where
  besti : Nat
  bestj : Nat
  bestsize : Nat
deriving Repr, DecidableEq

/-- Lookup in the `j2len` row dictionary (`j2len.get(j, 0)`). -/
def jlen (l : List (Nat × Nat)) (j : Nat) : Nat :=
  (((l.find? (fun p => p.1 = j)).map (fun p => p.2)).getD 0)

/-- One inner step of the `find_longest_match` dynamic program at row `i`,
column `j`: `k = j2len.get(j-1, 0) + 1` (`j2lenPrev` is the previous row),
record `newj2len[j] = k`, and update the running best when `k > bestsize`.
`j2len.get(j-1, 0)` at `j = 0` reads Python key `-1`, which is never
present, hence `0`. -/
def flmStep (j2lenPrev : List (Nat × Nat)) (i : Nat)
    (acc : List (Nat × Nat) × FLMState) (j : Nat) : List (Nat × Nat) × FLMState :=
  let k := (if j = 0 then 0 else jlen j2lenPrev (j - 1)) + 1
  ((j, k) :: acc.1,
    if acc.2.bestsize < k then ⟨i + 1 - k, j + 1 - k, k⟩ else acc.2)

/-- One row of the `find_longest_match` dynamic program: process all
positions `j` of `a[i]` in `b` (restricted to `[blo, bhi)`), building the
new `j2len` dictionary and updating the running best. -/
def flmRow (i : Nat) (js : List Nat) (j2lenPrev : List (Nat × Nat)) (st : FLMState) :
    List (Nat × Nat) × FLMState :=
  js.foldl (flmStep j2lenPrev i) ([], st)

/-- One outer step of the dynamic program: row `i` of the scan, with the
accumulated `(j2len, best)` pair.  Python's ascending position list with
`if j < blo: continue` / `if j >= bhi: break` is the filter to
`blo ≤ j < bhi`. -/
def flmOuter (junk : Char → Bool) (a b : List Char) (blo bhi : Nat)
    (acc : List (Nat × Nat) × FLMState) (i : Nat) : List (Nat × Nat) × FLMState :=
  flmRow i ((b2j junk b (a.getD i ' ')).filter (fun j => blo ≤ j && j < bhi)) acc.1 acc.2

/-- The full dynamic program of `find_longest_match` over rows
`i ∈ [alo, ahi)`. -/
def flmMain (junk : Char → Bool) (a b : List Char) (alo ahi blo bhi : Nat) :
    List (Nat × Nat) × FLMState :=
  (List.range' alo (ahi - alo)).foldl (flmOuter junk a b blo bhi) ([], ⟨alo, blo, 0⟩)

/-- Left extension loop of `find_longest_match` (`junkSide = false` is the
non-junk loop, `junkSide = true` the junk loop): grow the match to the left
over equal elements whose junk status matches `junkSide`. -/
def extendLeft (junkSide : Bool) (junk : Char → Bool) (a b : List Char) (alo blo : Nat)
    (bi bj bs : Nat) : FLMState :=
  if alo < bi ∧ blo < bj ∧
      junk (b.getD (bj - 1) ' ') = junkSide ∧
      a.getD (bi - 1) ' ' = b.getD (bj - 1) ' ' then
    extendLeft junkSide junk a b alo blo (bi - 1) (bj - 1) (bs + 1)
  else ⟨bi, bj, bs⟩
termination_by bi
decreasing_by omega

/-- Right extension loop of `find_longest_match`: grow the match to the
right over equal elements whose junk status matches `junkSide`. -/
def extendRight (junkSide : Bool) (junk : Char → Bool) (a b : List Char) (ahi bhi : Nat)
    (bi bj bs : Nat) : FLMState :=
  if bi + bs < ahi ∧ bj + bs < bhi ∧
      junk (b.getD (bj + bs) ' ') = junkSide ∧
      a.getD (bi + bs) ' ' = b.getD (bj + bs) ' ' then
    extendRight junkSide junk a b ahi bhi bi bj (bs + 1)
  else ⟨bi, bj, bs⟩
termination_by ahi - (bi + bs)
decreasing_by omega

/-- `SequenceMatcher.find_longest_match(alo, ahi, blo, bhi)`: the dynamic
program followed by the four junk-aware extension loops. -/
def findLongestMatch (junk : Char → Bool) (a b : List Char) (alo ahi blo bhi : Nat) :
    FLMState :=
  let s0 := (flmMain junk a b alo ahi blo bhi).2
  let s1 := extendLeft false junk a b alo blo s0.besti s0.bestj s0.bestsize
  let s2 := extendRight false junk a b ahi bhi s1.besti s1.bestj s1.bestsize
  let s3 := extendLeft true junk a b alo blo s2.besti s2.bestj s2.bestsize
  extendRight true junk a b ahi bhi s3.besti s3.bestj s3.bestsize

/-- The window bounds every state of `find_longest_match` satisfies:
the reported block lies inside `[alo, ahi) × [blo, bhi)`. -/
def FLMInv (alo ahi blo bhi : Nat) (st : FLMState) : Prop :=
  alo ≤ st.besti ∧ blo ≤ st.bestj ∧
    st.besti + st.bestsize ≤ ahi ∧ st.bestj + st.bestsize ≤ bhi

/-- Bounds carried by a `j2len` row produced while scanning row `i`:
each recorded run of length `k` ending at column `j` fits the window. -/
def PrevInv (alo blo bhi i : Nat) (l : List (Nat × Nat)) : Prop :=
  ∀ p ∈ l, blo ≤ p.1 ∧ p.1 < bhi ∧ 1 ≤ p.2 ∧ p.2 + alo ≤ i ∧ p.2 + blo ≤ p.1 + 1

theorem jlen_cases (l : List (Nat × Nat)) (j : Nat) :
    jlen l j = 0 ∨ (j, jlen l j) ∈ l := by
  unfold jlen
  cases hf : l.find? (fun p => p.1 = j) with
  | none => simp
  | some p =>
    right
    have hmem := List.mem_of_find?_eq_some hf
    have hp := List.find?_some hf
    simp only [decide_eq_true_eq] at hp
    obtain ⟨p1, p2⟩ := p
    simp only at hp
    subst hp
    simpa using hmem

theorem flmStep_inv (alo ahi blo bhi i : Nat) (hi1 : alo ≤ i) (hi2 : i < ahi)
    (prev : List (Nat × Nat)) (hprev : PrevInv alo blo bhi i prev)
    (acc : List (Nat × Nat) × FLMState) (j : Nat) (hj : blo ≤ j ∧ j < bhi)
    (h1 : PrevInv alo blo bhi (i + 1) acc.1) (h2 : FLMInv alo ahi blo bhi acc.2) :
    PrevInv alo blo bhi (i + 1) (flmStep prev i acc j).1 ∧
      FLMInv alo ahi blo bhi (flmStep prev i acc j).2 := by
  have hk : 1 ≤ (if j = 0 then 0 else jlen prev (j - 1)) + 1 ∧
      (if j = 0 then 0 else jlen prev (j - 1)) + 1 + alo ≤ i + 1 ∧
      (if j = 0 then 0 else jlen prev (j - 1)) + 1 + blo ≤ j + 1 := by
    by_cases hj0 : j = 0
    · rw [if_pos hj0]; omega
    · rw [if_neg hj0]
      rcases jlen_cases prev (j - 1) with h0 | hmem
      · rw [h0]; omega
      · have := hprev _ hmem
        simp only at this
        omega
  set K := (if j = 0 then 0 else jlen prev (j - 1)) + 1 with hKdef
  constructor
  · intro p hp
    have hp' : p = (j, K) ∨ p ∈ acc.1 := by
      simpa [flmStep, ← hKdef] using hp
    rcases hp' with rfl | hp'
    · exact ⟨hj.1, hj.2, hk.1, hk.2.1, hk.2.2⟩
    · exact h1 p hp'
  · have hsnd : (flmStep prev i acc j).2 =
        if acc.2.bestsize < K then ⟨i + 1 - K, j + 1 - K, K⟩ else acc.2 := rfl
    rw [hsnd]
    split
    · refine ⟨?_, ?_, ?_, ?_⟩
      · show alo ≤ i + 1 - K
        omega
      · show blo ≤ j + 1 - K
        omega
      · show i + 1 - K + K ≤ ahi
        omega
      · show j + 1 - K + K ≤ bhi
        omega
    · exact h2

theorem flmRow_inv (alo ahi blo bhi i : Nat) (hi1 : alo ≤ i) (hi2 : i < ahi)
    (prev : List (Nat × Nat)) (hprev : PrevInv alo blo bhi i prev)
    (js : List Nat) (hjs : ∀ j ∈ js, blo ≤ j ∧ j < bhi)
    (st : FLMState) (hst : FLMInv alo ahi blo bhi st) :
    PrevInv alo blo bhi (i + 1) (flmRow i js prev st).1 ∧
      FLMInv alo ahi blo bhi (flmRow i js prev st).2 := by
  unfold flmRow
  have main : ∀ (l : List Nat), (∀ j ∈ l, blo ≤ j ∧ j < bhi) →
      ∀ (acc : List (Nat × Nat) × FLMState),
        PrevInv alo blo bhi (i + 1) acc.1 → FLMInv alo ahi blo bhi acc.2 →
        PrevInv alo blo bhi (i + 1) ((l.foldl (flmStep prev i) acc).1) ∧
          FLMInv alo ahi blo bhi ((l.foldl (flmStep prev i) acc).2) := by
    intro l
    induction l with
    | nil => intro _ acc ha1 ha2; exact ⟨ha1, ha2⟩
    | cons j js ih =>
      intro hb acc ha1 ha2
      rw [List.foldl_cons]
      have hstep := flmStep_inv alo ahi blo bhi i hi1 hi2 prev hprev acc j
        (hb j (by simp)) ha1 ha2
      exact ih (fun x hx => hb x (by simp [hx])) _ hstep.1 hstep.2
  exact main js hjs ([], st) (fun p hp => absurd hp (List.not_mem_nil p)) hst

theorem flmMain_inv (junk : Char → Bool) (a b : List Char) (alo ahi blo bhi : Nat)
    (h1 : alo ≤ ahi) (h2 : blo ≤ bhi) :
    FLMInv alo ahi blo bhi (flmMain junk a b alo ahi blo bhi).2 := by
  unfold flmMain
  have main : ∀ (n s : Nat), alo ≤ s → s + n ≤ ahi →
      ∀ (acc : List (Nat × Nat) × FLMState),
        PrevInv alo blo bhi s acc.1 → FLMInv alo ahi blo bhi acc.2 →
        FLMInv alo ahi blo bhi
          (((List.range' s n).foldl (flmOuter junk a b blo bhi) acc).2) := by
    intro n
    induction n with
    | zero => intro s _ _ acc _ h; simpa using h
    | succ n ih =>
      intro s hs1 hs2 acc hrow hst
      rw [List.range'_succ, List.foldl_cons]
      have hjs : ∀ j ∈ (b2j junk b (a.getD s ' ')).filter (fun j => blo ≤ j && j < bhi),
          blo ≤ j ∧ j < bhi := by
        intro j hj
        have := List.of_mem_filter hj
        simp only [Bool.and_eq_true, decide_eq_true_eq] at this
        exact this
      have hrow' := flmRow_inv alo ahi blo bhi s hs1 (by omega) acc.1 hrow _ hjs
        acc.2 hst
      exact ih (s + 1) (by omega) (by omega) _ hrow'.1 hrow'.2
  exact main (ahi - alo) alo le_rfl (by omega) ([], ⟨alo, blo, 0⟩)
    (fun p hp => absurd hp (List.not_mem_nil p))
    ⟨le_rfl, le_rfl, by simpa using h1, by simpa using h2⟩

theorem extendLeft_inv (junkSide : Bool) (junk : Char → Bool) (a b : List Char)
    (alo ahi blo bhi : Nat) :
    ∀ (bi bj bs : Nat), alo ≤ bi → blo ≤ bj → bi + bs ≤ ahi → bj + bs ≤ bhi →
      FLMInv alo ahi blo bhi (extendLeft junkSide junk a b alo blo bi bj bs) := by
  intro bi
  induction bi using Nat.strong_induction_on with
  | _ bi ih =>
    intro bj bs h1 h2 h3 h4
    rw [extendLeft]
    split
    · next h =>
      exact ih (bi - 1) (by omega) (bj - 1) (bs + 1) (by omega) (by omega)
        (by omega) (by omega)
    · exact ⟨h1, h2, h3, h4⟩

theorem extendRight_inv (junkSide : Bool) (junk : Char → Bool) (a b : List Char)
    (alo ahi blo bhi : Nat) :
    ∀ (n bi bj bs : Nat), ahi ≤ bi + bs + n → alo ≤ bi → blo ≤ bj →
      bi + bs ≤ ahi → bj + bs ≤ bhi →
      FLMInv alo ahi blo bhi (extendRight junkSide junk a b ahi bhi bi bj bs) := by
  intro n
  induction n with
  | zero =>
    intro bi bj bs hn h1 h2 h3 h4
    rw [extendRight]
    rw [if_neg (by omega)]
    exact ⟨h1, h2, h3, h4⟩
  | succ n ih =>
    intro bi bj bs hn h1 h2 h3 h4
    rw [extendRight]
    split
    · next h => exact ih bi bj (bs + 1) (by omega) h1 h2 (by omega) (by omega)
    · exact ⟨h1, h2, h3, h4⟩

/-- The block reported by `find_longest_match` lies inside the query
window `[alo, ahi) × [blo, bhi)`. -/
theorem findLongestMatch_inv (junk : Char → Bool) (a b : List Char)
    (alo ahi blo bhi : Nat) (h1 : alo ≤ ahi) (h2 : blo ≤ bhi) :
    FLMInv alo ahi blo bhi (findLongestMatch junk a b alo ahi blo bhi) := by
  unfold findLongestMatch
  have i0 := flmMain_inv junk a b alo ahi blo bhi h1 h2
  obtain ⟨a0, b0, c0, d0⟩ := i0
  have i1 := extendLeft_inv false junk a b alo ahi blo bhi _ _ _ a0 b0 c0 d0
  obtain ⟨a1, b1, c1, d1⟩ := i1
  have i2 := extendRight_inv false junk a b alo ahi blo bhi
    (ahi - ((extendLeft false junk a b alo blo (flmMain junk a b alo ahi blo bhi).2.besti
      (flmMain junk a b alo ahi blo bhi).2.bestj
      (flmMain junk a b alo ahi blo bhi).2.bestsize).besti +
      (extendLeft false junk a b alo blo (flmMain junk a b alo ahi blo bhi).2.besti
      (flmMain junk a b alo ahi blo bhi).2.bestj
      (flmMain junk a b alo ahi blo bhi).2.bestsize).bestsize)) _ _ _ (by omega) a1 b1 c1 d1
  obtain ⟨a2, b2, c2, d2⟩ := i2
  have i3 := extendLeft_inv true junk a b alo ahi blo bhi _ _ _ a2 b2 c2 d2
  obtain ⟨a3, b3, c3, d3⟩ := i3
  exact extendRight_inv true junk a b alo ahi blo bhi (ahi) _ _ _ (by omega) a3 b3 c3 d3

theorem extendLeft_base (junkSide : Bool) (junk : Char → Bool) (a b : List Char)
    (alo blo bj bs : Nat) :
    extendLeft junkSide junk a b alo blo alo bj bs = ⟨alo, bj, bs⟩ := by
  rw [extendLeft, if_neg]
  intro hc
  omega

theorem extendRight_stuck (junkSide : Bool) (junk : Char → Bool) (a b : List Char)
    (ahi bhi bi bj bs : Nat) (h : ahi ≤ bi + bs ∨ bhi ≤ bj + bs) :
    extendRight junkSide junk a b ahi bhi bi bj bs = ⟨bi, bj, bs⟩ := by
  rw [extendRight, if_neg]
  intro hc
  omega

theorem findLongestMatch_degenerate (junk : Char → Bool) (a b : List Char)
    (alo ahi blo bhi : Nat)
    (hmain : flmMain junk a b alo ahi blo bhi = ([], ⟨alo, blo, 0⟩))
    (h : ahi ≤ alo ∨ bhi ≤ blo) :
    findLongestMatch junk a b alo ahi blo bhi = ⟨alo, blo, 0⟩ := by
  have e1 : extendLeft false junk a b alo blo alo blo 0 = ⟨alo, blo, 0⟩ :=
    extendLeft_base false junk a b alo blo blo 0
  have e2 : extendRight false junk a b ahi bhi alo blo 0 = ⟨alo, blo, 0⟩ :=
    extendRight_stuck false junk a b ahi bhi alo blo 0 (by omega)
  have e3 : extendLeft true junk a b alo blo alo blo 0 = ⟨alo, blo, 0⟩ :=
    extendLeft_base true junk a b alo blo blo 0
  have e4 : extendRight true junk a b ahi bhi alo blo 0 = ⟨alo, blo, 0⟩ :=
    extendRight_stuck true junk a b ahi bhi alo blo 0 (by omega)
  unfold findLongestMatch
  rw [hmain]
  simp only [e1, e2, e3, e4]

theorem findLongestMatch_empty_a (junk : Char → Bool) (a b : List Char)
    (alo ahi blo bhi : Nat) (h : ahi ≤ alo) :
    findLongestMatch junk a b alo ahi blo bhi = ⟨alo, blo, 0⟩ := by
  refine findLongestMatch_degenerate junk a b alo ahi blo bhi ?_ (Or.inl h)
  unfold flmMain
  rw [Nat.sub_eq_zero_of_le h]
  rfl

theorem findLongestMatch_empty_b (junk : Char → Bool) (a b : List Char)
    (alo ahi blo bhi : Nat) (h : bhi ≤ blo) :
    findLongestMatch junk a b alo ahi blo bhi = ⟨alo, blo, 0⟩ := by
  refine findLongestMatch_degenerate junk a b alo ahi blo bhi ?_ (Or.inr h)
  have hfilter : ∀ c : Char, (b2j junk b c).filter (fun j => blo ≤ j && j < bhi) = [] := by
    intro c
    refine List.filter_eq_nil_iff.mpr ?_
    intro j _
    simp only [Bool.and_eq_true, decide_eq_true_eq, not_and]
    omega
  unfold flmMain
  have main : ∀ (l : List Nat) (st : FLMState),
      l.foldl (flmOuter junk a b blo bhi) ([], st) = ([], st) := by
    intro l
    induction l with
    | nil => intro st; rfl
    | cons i is ih =>
      intro st
      rw [List.foldl_cons]
      have hstep : flmOuter junk a b blo bhi ([], st) i = ([], st) := by
        unfold flmOuter flmRow
        rw [hfilter]
        rfl
      rw [hstep, ih]
  exact main _ _

/-- If `find_longest_match` reports a non-empty block, the query window is
non-degenerate and the block lies inside it. -/
theorem findLongestMatch_bounds (junk : Char → Bool) (a b : List Char)
    (alo ahi blo bhi : Nat)
    (h : (findLongestMatch junk a b alo ahi blo bhi).bestsize ≠ 0) :
    alo ≤ (findLongestMatch junk a b alo ahi blo bhi).besti ∧
      blo ≤ (findLongestMatch junk a b alo ahi blo bhi).bestj ∧
      (findLongestMatch junk a b alo ahi blo bhi).besti +
        (findLongestMatch junk a b alo ahi blo bhi).bestsize ≤ ahi ∧
      (findLongestMatch junk a b alo ahi blo bhi).bestj +
        (findLongestMatch junk a b alo ahi blo bhi).bestsize ≤ bhi := by
  rcases le_or_lt alo ahi with h1 | h1
  · rcases le_or_lt blo bhi with h2 | h2
    · exact findLongestMatch_inv junk a b alo ahi blo bhi h1 h2
    · rw [findLongestMatch_empty_b junk a b alo ahi blo bhi (by omega)] at h ⊢
      simp at h
  · rw [findLongestMatch_empty_a junk a b alo ahi blo bhi (by omega)] at h ⊢
    simp at h

/-- One matching block of `get_matching_blocks`. -/
structure Block where
  ai : Nat
  bj : Nat
  size : Nat
deriving Repr, DecidableEq

/-- The recursive collection of maximal matching blocks
(`get_matching_blocks`'s queue-driven loop; the queue order only affects
the order of discovery, which the subsequent `sort()` cancels, so it is
modelled as left-to-right recursion). -/
def matchingBlocksRec (junk : Char → Bool) (a b : List Char)
    (alo ahi blo bhi : Nat) : List Block :=
  if hm : (findLongestMatch junk a b alo ahi blo bhi).bestsize = 0 then []
  else
    (if alo < (findLongestMatch junk a b alo ahi blo bhi).besti ∧
        blo < (findLongestMatch junk a b alo ahi blo bhi).bestj then
      matchingBlocksRec junk a b alo (findLongestMatch junk a b alo ahi blo bhi).besti
        blo (findLongestMatch junk a b alo ahi blo bhi).bestj
    else []) ++
    ⟨(findLongestMatch junk a b alo ahi blo bhi).besti,
      (findLongestMatch junk a b alo ahi blo bhi).bestj,
      (findLongestMatch junk a b alo ahi blo bhi).bestsize⟩ ::
      (if (findLongestMatch junk a b alo ahi blo bhi).besti +
            (findLongestMatch junk a b alo ahi blo bhi).bestsize < ahi ∧
          (findLongestMatch junk a b alo ahi blo bhi).bestj +
            (findLongestMatch junk a b alo ahi blo bhi).bestsize < bhi then
        matchingBlocksRec junk a b
          ((findLongestMatch junk a b alo ahi blo bhi).besti +
            (findLongestMatch junk a b alo ahi blo bhi).bestsize) ahi
          ((findLongestMatch junk a b alo ahi blo bhi).bestj +
            (findLongestMatch junk a b alo ahi blo bhi).bestsize) bhi
      else [])
termination_by (ahi - alo) + (bhi - blo)
decreasing_by
· have hb := findLongestMatch_bounds junk a b alo ahi blo bhi hm
  omega
· have hb := findLongestMatch_bounds junk a b alo ahi blo bhi hm
  omega

/-! ### Stable sort

Python's `list.sort` / `sorted` is a stable ascending sort; stable sorts
with a fixed total preorder agree on every input, so it is modelled by
stable insertion sort. -/

/-- Stable ascending sort (Python `sorted` / `list.sort`); all stable
sorts under one total preorder agree, so insertion sort models Timsort. -/
def pySort {α : Type} (le : α → α → Bool) (l : List α) : List α :=
  List.insertionSort (fun a b => le a b = true) l

/-- Lexicographic order on blocks (Python tuple comparison for `sort()`). -/
def blockLE (x y : Block) : Bool :=
  x.ai < y.ai || (x.ai = y.ai && (x.bj < y.bj || (x.bj = y.bj && x.size ≤ y.size)))

/-- The second loop of `get_matching_blocks`: collapse adjacent blocks. -/
def mergeAdjacent (i1 j1 k1 : Nat) : List Block → List Block
  | [] => if k1 ≠ 0 then [⟨i1, j1, k1⟩] else []
  | ⟨i2, j2, k2⟩ :: rest =>
    if i1 + k1 = i2 ∧ j1 + k1 = j2 then mergeAdjacent i1 j1 (k1 + k2) rest
    else (if k1 ≠ 0 then [⟨i1, j1, k1⟩] else []) ++ mergeAdjacent i2 j2 k2 rest

/-- `SequenceMatcher.get_matching_blocks()`: recursively collect maximal
blocks, sort, collapse adjacent ones, and append the `(la, lb, 0)`
sentinel. -/
def getMatchingBlocks (junk : Char → Bool) (a b : List Char) : List Block :=
  mergeAdjacent 0 0 0
      (pySort blockLE (matchingBlocksRec junk a b 0 a.length 0 b.length)) ++
    [⟨a.length, b.length, 0⟩]

/-- The total number of matched elements `M` used by `ratio()`. -/
def totalMatched (junk : Char → Bool) (a b : List Char) : Nat :=
  ((getMatchingBlocks junk a b).map (fun blk => blk.size)).sum

/-- `difflib._calculate_ratio`. -/
def calcRatio (matched length : Nat) : ℚ :=
  if length ≠ 0 then 2 * (matched : ℚ) / (length : ℚ) else 1

/-- `SequenceMatcher.ratio()`. -/
def smRatio (junk : Char → Bool) (a b : List Char) : ℚ :=
  calcRatio (totalMatched junk a b) (a.length + b.length)

/-- `SequenceMatcher.quick_ratio()`. -/
def quickRatioSM (a b : List Char) : ℚ :=
  let loop := a.foldl
    (fun (acc : List (Char × Int) × Nat) c =>
      let numb : Int :=
        ((acc.1.find? (fun p => p.1 = c)).map (fun p => p.2)).getD ((b.count c : Nat) : Int)
      ((c, numb - 1) :: acc.1, if (0 : Int) < numb then acc.2 + 1 else acc.2))
    (([] : List (Char × Int)), (0 : Nat))
  calcRatio loop.2 (a.length + b.length)

/-- `SequenceMatcher.real_quick_ratio()`. -/
def realQuickRatioSM (a b : List Char) : ℚ :=
  calcRatio (min a.length b.length) (a.length + b.length)

/-! #### Bounds on the ratio -/

/-- Total size of a list of blocks. -/
def sumSizes (l : List Block) : Nat := (l.map (fun blk => blk.size)).sum

theorem sumSizes_append (l1 l2 : List Block) :
    sumSizes (l1 ++ l2) = sumSizes l1 + sumSizes l2 := by
  simp [sumSizes]

theorem sumSizes_cons (blk : Block) (l : List Block) :
    sumSizes (blk :: l) = blk.size + sumSizes l := by
  simp [sumSizes]

theorem matchingBlocksRec_sum (junk : Char → Bool) (a b : List Char) :
    ∀ (n alo ahi blo bhi : Nat), ahi - alo + (bhi - blo) ≤ n →
      sumSizes (matchingBlocksRec junk a b alo ahi blo bhi) ≤ ahi - alo ∧
        sumSizes (matchingBlocksRec junk a b alo ahi blo bhi) ≤ bhi - blo := by
  intro n
  induction n with
  | zero =>
    intro alo ahi blo bhi hn
    have ha : ahi ≤ alo := by omega
    have h0 := findLongestMatch_empty_a junk a b alo ahi blo bhi ha
    rw [matchingBlocksRec, h0]
    simp [sumSizes]
  | succ n ih =>
    intro alo ahi blo bhi hn
    rw [matchingBlocksRec]
    have hbnd := findLongestMatch_bounds junk a b alo ahi blo bhi
    generalize hF : findLongestMatch junk a b alo ahi blo bhi = F at hbnd ⊢
    split
    · simp [sumSizes]
    · next hm =>
      have hb := hbnd hm
      rw [sumSizes_append, sumSizes_cons]
      dsimp only
      by_cases hL : alo < F.besti ∧ blo < F.bestj
      · by_cases hR : F.besti + F.bestsize < ahi ∧ F.bestj + F.bestsize < bhi
        · rw [if_pos hL, if_pos hR]
          have h1 := ih alo F.besti blo F.bestj (by omega)
          have h2 := ih (F.besti + F.bestsize) ahi (F.bestj + F.bestsize) bhi (by omega)
          omega
        · rw [if_pos hL, if_neg hR]
          have h1 := ih alo F.besti blo F.bestj (by omega)
          have h0 : sumSizes ([] : List Block) = 0 := by simp [sumSizes]
          omega
      · by_cases hR : F.besti + F.bestsize < ahi ∧ F.bestj + F.bestsize < bhi
        · rw [if_neg hL, if_pos hR]
          have h2 := ih (F.besti + F.bestsize) ahi (F.bestj + F.bestsize) bhi (by omega)
          have h0 : sumSizes ([] : List Block) = 0 := by simp [sumSizes]
          omega
        · rw [if_neg hL, if_neg hR]
          have h0 : sumSizes ([] : List Block) = 0 := by simp [sumSizes]
          omega

theorem pySort_perm {α : Type} (le : α → α → Bool) (l : List α) :
    (pySort le l).Perm l :=
  List.perm_insertionSort _ l

theorem sumSizes_perm {l1 l2 : List Block} (h : l1.Perm l2) :
    sumSizes l1 = sumSizes l2 := by
  unfold sumSizes
  exact List.Perm.sum_eq (List.Perm.map (fun blk => blk.size) h)

theorem mergeAdjacent_sum :
    ∀ (l : List Block) (i1 j1 k1 : Nat),
      sumSizes (mergeAdjacent i1 j1 k1 l) = k1 + sumSizes l := by
  intro l
  induction l with
  | nil =>
    intro i1 j1 k1
    rw [mergeAdjacent]
    split
    · simp [sumSizes]
    · next h =>
      simp only [ne_eq, not_not] at h
      simp [sumSizes, h]
  | cons blk rest ih =>
    intro i1 j1 k1
    obtain ⟨i2, j2, k2⟩ := blk
    rw [mergeAdjacent]
    split
    · rw [ih, sumSizes_cons]
      dsimp only
      omega
    · rw [sumSizes_append, sumSizes_cons, ih]
      dsimp only
      split
      · next h =>
        have h1 : sumSizes [(⟨i1, j1, k1⟩ : Block)] = k1 := by simp [sumSizes]
        omega
      · next h =>
        simp only [ne_eq, not_not] at h
        have h1 : sumSizes ([] : List Block) = 0 := by simp [sumSizes]
        omega

/-- The matched total of `ratio()` is at most the length of either
sequence. -/
theorem totalMatched_le (junk : Char → Bool) (a b : List Char) :
    totalMatched junk a b ≤ a.length ∧ totalMatched junk a b ≤ b.length := by
  unfold totalMatched getMatchingBlocks
  show sumSizes _ ≤ _ ∧ sumSizes _ ≤ _
  rw [sumSizes_append, mergeAdjacent_sum,
    sumSizes_perm (pySort_perm blockLE (matchingBlocksRec junk a b 0 a.length 0 b.length))]
  have := matchingBlocksRec_sum junk a b (a.length + b.length) 0 a.length 0 b.length
    (by omega)
  constructor
  · have h2 : sumSizes [(⟨a.length, b.length, 0⟩ : Block)] = 0 := by simp [sumSizes]
    omega
  · have h2 : sumSizes [(⟨a.length, b.length, 0⟩ : Block)] = 0 := by simp [sumSizes]
    omega

/-! ### law_comparator.py: calculate_similarity -/

/-- `LawComparator.calculate_similarity`: `0.0` when either text is falsy
(empty), otherwise `SequenceMatcher(None, text1, text2).ratio()`. -/
def calculate_similarity (text1 text2 : PyStr) : ℚ :=
  if text1 = [] ∨ text2 = [] then 0
  else smRatio noJunk text1 text2

/-! ### law_parser.py: Chinese numerals -/

/-- `LawParser._build_chinese_number_dict` as an association list. -/
def chineseNumberDict : List (Char × Nat) :=
  [('零', 0), ('一', 1), ('二', 2), ('三', 3), ('四', 4), ('五', 5),
   ('六', 6), ('七', 7), ('八', 8), ('九', 9),
   ('十', 10), ('百', 100), ('千', 1000), ('万', 10000)]

/-- Dictionary lookup `base_numbers.get(char)`. -/
def baseLookup (c : Char) : Option Nat :=
  (chineseNumberDict.find? (fun p => p.1 = c)).map (fun p => p.2)

/-- The scan of `LawParser._parse_complex_chinese_number`; `result` and
`temp` are the loop state, `i` the character index. -/
def parseComplexAux (result temp i : Nat) : List Char → Nat
  | [] =>
    -- `result += temp_num; return result if result > 0 else 0`
    if 0 < result + temp then result + temp else 0
  | c :: cs =>
    match baseLookup c with
    | some v =>
      if v < 10 then
        -- base digit (includes '零', whose value 0 < 10)
        parseComplexAux result v (i + 1) cs
      else
        -- numeric unit 十/百/千/万
        let t1 := if c = '十' ∧ i = 0 then 1 else temp
        let t2 := if t1 = 0 then 1 else t1
        parseComplexAux (result + t2 * v) 0 (i + 1) cs
    | none =>
      -- unknown character: skipped
      parseComplexAux result temp (i + 1) cs

/-- `LawParser.convert_chinese_number`: empty input converts to 0; a string
that is itself a dictionary key (necessarily a single character) maps
directly; otherwise the complex scan runs. -/
def convert_chinese_number (s : List Char) : Nat :=
  match s with
  | [] => 0
  | [c] =>
    match baseLookup c with
    | some v => v
    | none => parseComplexAux 0 0 0 [c]
  | _ => parseComplexAux 0 0 0 s

/-! ### law_parser.py: line-break repair -/

/-- Sentence-terminal punctuation of `_should_merge_lines`' first check
(`current_line.endswith(...)`). -/
def terminalPunct : List Char :=
  ['.', '。', ';', '；', ':', '：', '!', '！', '?', '？']

/-- Line-start markers of `_should_merge_lines`' second check
(`next_line.startswith(...)`). -/
def startMarkers : List Char :=
  ['(', '（', '第', '条', '章', '节']

/-- Comma-class separators (`current_line.endswith((',', '，', '、'))`). -/
def commaClass : List Char :=
  [',', '，', '、']

/-- The character class `[。，；：！？、.;:!?]` of the final regex check. -/
def punctClass : List Char :=
  ['。', '，', '；', '：', '！', '？', '、', '.', ';', ':', '!', '?']

/-- Characters allowed inside an enumerator `（一)`-style token:
`[一二三四五六七八九十百千万零\d]`  (`\d` is modelled as ASCII digits,
the only digits the statute texts contain). -/
def isEnumChar (c : Char) : Bool :=
  c ∈ ['一', '二', '三', '四', '五', '六', '七', '八', '九', '十',
       '百', '千', '万', '零'] || c.isDigit

/-- `re.match(r'^[\(（][一二三四五六七八九十百千万零\d]+[\)）]', line)`:
an opening parenthesis, one or more enumerator characters, a closing
parenthesis.  (The character classes are disjoint, so the regex engine's
greedy match is the `takeWhile`.) -/
def matchesEnum (l : PyStr) : Bool :=
  match l with
  | [] => false
  | c :: rest =>
    (c = '(' || c = '（') &&
      (let body := rest.takeWhile isEnumChar
       decide (body ≠ []) &&
         (match rest.drop body.length with
          | d :: _ => d = ')' || d = '）'
          | [] => false))

/-- Python `line.endswith(tuple)` for single-character suffixes: the last
character is in the set. -/
def lastIn (s : PyStr) (set : List Char) : Bool :=
  match s.getLast? with
  | some c => c ∈ set
  | none => false

/-- Python `line.startswith(tuple)` for single-character alternatives. -/
def headIn (s : PyStr) (set : List Char) : Bool :=
  match s.head? with
  | some c => c ∈ set
  | none => false

/-- `LawParser._should_merge_lines`. -/
def should_merge_lines (cur nxt : PyStr) : Bool :=
  -- current line ends with sentence-terminal punctuation → no merge
  if lastIn cur terminalPunct then false
  -- next line starts with a structural marker → no merge
  else if headIn nxt startMarkers then false
  -- next line starts with an enumerator token → no merge
  else if matchesEnum nxt then false
  -- current line ends with a comma-class separator → merge
  else if lastIn cur commaClass then true
  -- no trailing punctuation at all → merge
  else if !lastIn cur punctClass then true
  else false

/-- The inner `while` of `fix_pdf_line_breaks`: keep merging the stripped
next line into `cur` while it is non-blank and `_should_merge_lines`
approves; returns the merged line and the remaining lines. -/
def mergeFrom (cur : PyStr) : List PyStr → PyStr × List PyStr
  | [] => (cur, [])
  | l :: rest =>
    let nxt := pstrip l
    if nxt = [] then (cur, l :: rest)
    else if should_merge_lines cur nxt then mergeFrom (cur ++ nxt) rest
    else (cur, l :: rest)

theorem mergeFrom_length (cur : PyStr) (ls : List PyStr) :
    (mergeFrom cur ls).2.length ≤ ls.length := by
  induction ls generalizing cur with
  | nil => simp [mergeFrom]
  | cons l rest ih =>
    simp only [mergeFrom]
    split
    · simp
    · split
      · exact le_trans (ih _) (by simp)
      · simp

/-- The outer loop of `fix_pdf_line_breaks` over the split lines. -/
def fixLines : List PyStr → List PyStr
  | [] => []
  | l :: rest =>
    let cur := pstrip l
    if cur = [] then fixLines rest
    else
      (mergeFrom cur rest).1 :: fixLines (mergeFrom cur rest).2
termination_by ls => ls.length
decreasing_by
· simp
· have := mergeFrom_length (pstrip g) gs
  simp only [List.length_cons]
  omega

/-- `LawParser.fix_pdf_line_breaks`. -/
def fix_pdf_line_breaks (text : PyStr) : PyStr :=
  if text = [] then text
  else joinNL (fixLines (splitNL text))

/-! ### law_parser.py: punctuation normalization -/

/-- The `punctuation_map` of `normalize_punctuation`, in insertion order.
The quote entries map the ASCII quote characters to themselves (the
source file literally contains `'"': '"'` and `"'": "'"`). -/
def punctuationMap : List (Char × Char) :=
  [(',', '，'), ('.', '。'), (';', '；'), (':', '：'), ('?', '？'), ('!', '！'),
   ('(', '（'), (')', '）'), ('[', '［'), (']', '］'),
   ('\x7b', '｛'), ('\x7d', '｝'),
   ('<', '《'), ('>', '》'), ('«', '《'), ('»', '》'),
   ('\x22', '\x22'), ('\x27', '\x27')]

/-- The `for half_width, full_width in punctuation_map.items()` replacement
loop (each `str.replace` with a single-character needle and a
single-character replacement is a character map). -/
def applyPunctuationMap (t : PyStr) : PyStr :=
  punctuationMap.foldl
    (fun s p => s.map (fun c => if c = p.1 then p.2 else c)) t

/-- `re.sub(r'(\d+)。(\s)', r'\1. \2', text)`: a maximal digit run followed
by `。` and a whitespace character is rewritten to the digits, `'. '`, and
the whitespace character.  Scanning is left-to-right and non-overlapping;
when the run is not followed by `。`+whitespace no start inside the run can
match either, so the whole run is emitted. -/
def subNumPeriod : PyStr → PyStr
  | [] => []
  | c :: cs =>
    if hdig : c.isDigit then
      let ds := (c :: cs).takeWhile (fun d => d.isDigit)
      match hdrop : (c :: cs).drop ds.length with
      | '。' :: w :: rest2 =>
        if isPyWs w then ds ++ ['.', ' '] ++ (w :: subNumPeriod rest2)
        else ds ++ subNumPeriod ('。' :: w :: rest2)
      | rest => ds ++ subNumPeriod rest
    else c :: subNumPeriod cs
termination_by l => l.length
decreasing_by
· have hl := congrArg List.length hdrop
  simp only [List.length_drop, List.length_cons] at hl ⊢
  omega
· have hl := congrArg List.length hdrop
  have hd : 1 ≤ ((c :: cs).takeWhile (fun d => d.isDigit)).length := by
    simp [List.takeWhile_cons, hdig]
  simp only [List.length_drop, List.length_cons] at hl ⊢
  unfold ds at hl
  omega
· have hl := congrArg List.length hdrop
  have hd : 1 ≤ ((c :: cs).takeWhile (fun d => d.isDigit)).length := by
    simp [List.takeWhile_cons, hdig]
  simp only [List.length_drop, List.length_cons] at hl ⊢
  unfold ds at hl
  omega
· simp

/-- `LawParser._clean_spaces`: `re.sub(r'\s+', '', text).strip()` — every
whitespace character is removed, then the (now vacuous) strip runs. -/
def cleanSpaces (t : PyStr) : PyStr :=
  pstrip (t.filter (fun c => !isPyWs c))

/-- `LawParser.normalize_punctuation`: the punctuation-map replacement
loop, the (identity) quote replacement `replace('"', '"')`, the
digit-period restoration `re.sub(r'(\d+)。(\s)', r'\1. \2', ...)`, and
`_clean_spaces`. -/
def normalize_punctuation (text : PyStr) : PyStr :=
  if text = [] then text
  else cleanSpaces (subNumPeriod (replaceChar (applyPunctuationMap text) '\x22' ['\x22']))

/-! ### law_comparator.py: data model -/

/-- One parsed article as the comparator consumes it: its pure content and
the nullable chapter/section back-references (`article.get('chapter_num')`
etc.). -/
structure Article where
  content : PyStr
  chapter_num : Option Int := none
  section_num : Option Int := none
deriving Repr, DecidableEq

/-- A parsed document's articles: a Python dict keyed by article number in
insertion order.  Keys of an actual dict are pairwise distinct; theorems
that need this carry a `Nodup` hypothesis. -/
abbrev Articles := List (Int × Article)

/-- A chapter or section header (number ↦ title). -/
abbrev Headers := List (Int × PyStr)

/-- A parsed law document as `compare_articles` consumes it. -/
structure Law where
  articles : Articles
  chapters : Headers := []
  sections : Headers := []
deriving Repr, DecidableEq

/-- Python `key in dict`. -/
def hasKey (d : Articles) (n : Int) : Bool :=
  (d.find? (fun p => p.1 = n)).isSome

/-- Python `dict[key]` with the default `Article` when absent (the
matching code only indexes keys it has checked, so the default is never
observable on the source's control paths). -/
def getArticle (d : Articles) (n : Int) : Article :=
  ((d.find? (fun p => p.1 = n)).map (fun p => p.2)).getD ⟨[], none, none⟩

/-- `articles[num].get('content', '')`. -/
def contentOf (d : Articles) (n : Int) : PyStr :=
  (getArticle d n).content

/-- Dict keys in insertion order. -/
def keysOf (d : Articles) : List Int :=
  d.map (fun p => p.1)

/-- One externally supplied manual match pair. -/
structure ManualMatch where
  old_number : Int
  new_number : Int
deriving Repr, DecidableEq

/-- Match type of an alignment entry. -/
inductive MType where
  | manual
  | auto
  | nomatch
deriving Repr, DecidableEq

/-- One entry of the `matches` list:
`(article1_num, article2_num, similarity, match_type)`. -/
structure MEntry where
  old : Int
  new : Int
  sim : ℚ
  mtype : MType
deriving Repr, DecidableEq

/-- The value returned by `intelligent_article_matching`
(`matches` is a reserved word in Lean, so that field is `entries`). -/
structure MatchingResult where
  entries : List MEntry
  newArticles : List Int
  used2 : List Int
  manualCount : Nat
deriving Repr, DecidableEq

/-! ### law_comparator.py: matching -/

/-- One candidate step of `find_best_match`: skip consumed numbers, keep
the first candidate that strictly improves the running best similarity. -/
def fbmStep (targetContent : PyStr) (used : List Int) (best : Int × ℚ)
    (p : Int × Article) : Int × ℚ :=
  if p.1 ∈ used then best
  else
    if best.2 < calculate_similarity targetContent p.2.content then
      (p.1, calculate_similarity targetContent p.2.content)
    else best

/-- `LawComparator.find_best_match(target, candidates, used)`: scan the
candidate dict in insertion order starting from `(-1, 0.0)`. -/
def find_best_match (targetContent : PyStr) (cands : Articles) (used : List Int) :
    Int × ℚ :=
  cands.foldl (fbmStep targetContent used) (-1, 0)

/-- Phase 0 of `intelligent_article_matching`: one manual pair.  The code
checks only that both article numbers exist (membership in the two dicts),
computes the similarity, appends a `manual` entry and adds both numbers to
the consumed sets (`set.add`, modelled by `List.insert`). -/
def manualStep (articles1 articles2 : Articles)
    (acc : List MEntry × List Int × List Int × Nat) (mm : ManualMatch) :
    List MEntry × List Int × List Int × Nat :=
  if hasKey articles1 mm.old_number ∧ hasKey articles2 mm.new_number then
    let s := calculate_similarity (contentOf articles1 mm.old_number)
      (contentOf articles2 mm.new_number)
    (acc.1 ++ [⟨mm.old_number, mm.new_number, s, MType.manual⟩],
      acc.2.1.insert mm.old_number, acc.2.2.1.insert mm.new_number, acc.2.2.2 + 1)
  else acc

/-- Phase 0 of `intelligent_article_matching` over the whole manual list. -/
def manualPhase (articles1 articles2 : Articles) (manual : List ManualMatch) :
    List MEntry × List Int × List Int × Nat :=
  manual.foldl (manualStep articles1 articles2) ([], [], [], 0)

/-- Phase 1 of `intelligent_article_matching`: one remaining old article.
`find_best_match` is consulted against the remaining new articles and the
evolving consumed set; a qualifying best match (`best != -1` and
similarity at least the threshold) is recorded as `auto` and consumed,
otherwise the old article is recorded as `(old, -1, 0.0, 'none')`. -/
def autoStep (remaining2 : Articles) (threshold : ℚ)
    (articles1 : Articles) (acc : List MEntry × List Int) (n : Int) :
    List MEntry × List Int :=
  let r := find_best_match (contentOf articles1 n) remaining2 acc.2
  if r.1 ≠ -1 ∧ threshold ≤ r.2 then
    (acc.1 ++ [⟨n, r.1, r.2, MType.auto⟩], acc.2.insert r.1)
  else
    (acc.1 ++ [⟨n, -1, 0, MType.nomatch⟩], acc.2)

/-- Python `sorted` on integer keys. -/
def sortedKeys (l : List Int) : List Int :=
  pySort (fun x y => x ≤ y) l

/-- `LawComparator.intelligent_article_matching(articles1, articles2)`
with the comparator state (`manual_matches`, `similarity_threshold`) as
explicit arguments. -/
def intelligent_article_matching (threshold : ℚ) (manual : List ManualMatch)
    (articles1 articles2 : Articles) : MatchingResult :=
  -- 第0阶段: manual matches
  let m := manualPhase articles1 articles2 manual
  let used1 := m.2.1
  let used2 := m.2.2.1
  -- 第一阶段: remaining articles, ascending old numbers
  let remaining1 := articles1.filter (fun p => decide (p.1 ∉ used1))
  let remaining2 := articles2.filter (fun p => decide (p.1 ∉ used2))
  let auto := (sortedKeys (keysOf remaining1)).foldl
    (autoStep remaining2 threshold articles1) ([], used2)
  -- 第二阶段: unmatched new articles, ascending numbers
  let newArticles := (sortedKeys (keysOf articles2)).filter
    (fun n => decide (n ∉ auto.2))
  ⟨m.1 ++ auto.1, newArticles, auto.2, m.2.2.2⟩

/-! ### difflib.Differ (character elements)

`generate_unified_html_diff` calls `Differ().compare(old_text, new_text)`
on plain strings, so the Differ's "lines" are single characters.  The
Differ's `linejunk` is `None` and its `charjunk` is `IS_CHARACTER_JUNK`. -/

/-- Opcode tags of `SequenceMatcher.get_opcodes()`. -/
inductive OpTag where
  | replace
  | delete
  | insert
  | equal
deriving Repr, DecidableEq

/-- One opcode `(tag, i1, i2, j1, j2)`. -/
structure Opcode where
  tag : OpTag
  a1 : Nat
  a2 : Nat
  b1 : Nat
  b2 : Nat
deriving Repr, DecidableEq

/-- `SequenceMatcher.get_opcodes()`. -/
def getOpcodes (junk : Char → Bool) (a b : List Char) : List Opcode :=
  ((getMatchingBlocks junk a b).foldl
    (fun (acc : List Opcode × Nat × Nat) blk =>
      let i := acc.2.1
      let j := acc.2.2
      let tagged : List Opcode :=
        if i < blk.ai ∧ j < blk.bj then [⟨.replace, i, blk.ai, j, blk.bj⟩]
        else if i < blk.ai then [⟨.delete, i, blk.ai, j, blk.bj⟩]
        else if j < blk.bj then [⟨.insert, i, blk.ai, j, blk.bj⟩]
        else []
      let equalOp : List Opcode :=
        if blk.size ≠ 0 then
          [⟨.equal, blk.ai, blk.ai + blk.size, blk.bj, blk.bj + blk.size⟩]
        else []
      (acc.1 ++ tagged ++ equalOp, blk.ai + blk.size, blk.bj + blk.size))
    ([], 0, 0)).1

/-- `Differ._dump(tag, x, lo, hi)`: one `"<tag> <element>"` line per
element. -/
def dumpTag (tag : Char) (x : List Char) (lo hi : Nat) : List PyStr :=
  (List.range' lo (hi - lo)).map (fun i => [tag, ' ', x.getD i ' '])

/-- `Differ._plain_replace`. -/
def plainReplace (a : List Char) (alo ahi : Nat) (b : List Char) (blo bhi : Nat) :
    List PyStr :=
  if bhi - blo < ahi - alo then dumpTag '+' b blo bhi ++ dumpTag '-' a alo ahi
  else dumpTag '-' a alo ahi ++ dumpTag '+' b blo bhi

/-- `difflib._keep_original_ws(line, tag_line)`. -/
def keepOriginalWs (line tags : PyStr) : PyStr :=
  (line.zip tags).map (fun p => if p.2 = ' ' ∧ isPyWs p.1 then p.1 else p.2)

/-- Python `str.rstrip()`. -/
def rstripWs (s : PyStr) : PyStr :=
  (s.reverse.dropWhile isPyWs).reverse

/-- `Differ._qformat(aline, bline, atags, btags)` (the `'? '` guide lines
keep difflib's trailing newline). -/
def qformat (aline bline atags btags : PyStr) : List PyStr :=
  let at' := rstripWs (keepOriginalWs aline atags)
  let bt' := rstripWs (keepOriginalWs bline btags)
  [['-', ' '] ++ aline] ++
    (if at' ≠ [] then [['?', ' '] ++ at' ++ ['\n']] else []) ++
    [['+', ' '] ++ bline] ++
    (if bt' ≠ [] then [['?', ' '] ++ bt' ++ ['\n']] else [])

/-- The intraline `^`/`-`/`+`/space marker strings built by
`_fancy_replace` from the opcodes of the two similar lines. -/
def intralineTags (junk : Char → Bool) (aelt belt : Char) : PyStr × PyStr :=
  (getOpcodes junk [aelt] [belt]).foldl
    (fun (acc : PyStr × PyStr) op =>
      let la := op.a2 - op.a1
      let lb := op.b2 - op.b1
      match op.tag with
      | .replace => (acc.1 ++ List.replicate la '^', acc.2 ++ List.replicate lb '^')
      | .delete => (acc.1 ++ List.replicate la '-', acc.2)
      | .insert => (acc.1, acc.2 ++ List.replicate lb '+')
      | .equal => (acc.1 ++ List.replicate la ' ', acc.2 ++ List.replicate lb ' '))
    ([], [])

/-- The double scan of `_fancy_replace` (outer loop over `j`, inner over
`i`): record the first equal pair, and the best-ratio pair over the
`0.74` running threshold guarded by the two quick ratios.  Returns
`(best_ratio, best pair, first equal pair)`. -/
def fancySearch (junk : Char → Bool) (a b : List Char) (alo ahi blo bhi : Nat) :
    ℚ × Option (Nat × Nat) × Option (Nat × Nat) :=
  ((List.range' blo (bhi - blo)).flatMap
    (fun j => (List.range' alo (ahi - alo)).map (fun i => (i, j)))).foldl
    (fun st p =>
      let ai := a.getD p.1 ' '
      let bj := b.getD p.2 ' '
      if ai = bj then
        (st.1, st.2.1, match st.2.2 with | none => some p | some q => some q)
      else if st.1 < realQuickRatioSM [ai] [bj] ∧ st.1 < quickRatioSM [ai] [bj] ∧
          st.1 < smRatio junk [ai] [bj] then
        (smRatio junk [ai] [bj], some p, st.2.2)
      else st)
    (37/50, none, none)

theorem fancySearch_bounds (junk : Char → Bool) (a b : List Char)
    (alo ahi blo bhi : Nat) :
    (∀ p, (fancySearch junk a b alo ahi blo bhi).2.1 = some p →
      alo ≤ p.1 ∧ p.1 < ahi ∧ blo ≤ p.2 ∧ p.2 < bhi) ∧
    (∀ p, (fancySearch junk a b alo ahi blo bhi).2.2 = some p →
      alo ≤ p.1 ∧ p.1 < ahi ∧ blo ≤ p.2 ∧ p.2 < bhi) := by
  unfold fancySearch
  have hmem : ∀ p ∈ (List.range' blo (bhi - blo)).flatMap
      (fun j => (List.range' alo (ahi - alo)).map (fun i => (i, j))),
      alo ≤ p.1 ∧ p.1 < ahi ∧ blo ≤ p.2 ∧ p.2 < bhi := by
    intro p hp
    simp only [List.mem_flatMap, List.mem_map, List.mem_range'] at hp
    obtain ⟨j, hj, i, hi, rfl⟩ := hp
    obtain ⟨ij, hij, rfl⟩ := hi
    obtain ⟨jj, hjj, rfl⟩ := hj
    constructor
    · omega
    constructor
    · omega
    constructor
    · omega
    · omega
  -- fold invariant
  have main : ∀ (l : List (Nat × Nat)),
      (∀ p ∈ l, alo ≤ p.1 ∧ p.1 < ahi ∧ blo ≤ p.2 ∧ p.2 < bhi) →
      ∀ (st : ℚ × Option (Nat × Nat) × Option (Nat × Nat)),
        (∀ p, st.2.1 = some p → alo ≤ p.1 ∧ p.1 < ahi ∧ blo ≤ p.2 ∧ p.2 < bhi) →
        (∀ p, st.2.2 = some p → alo ≤ p.1 ∧ p.1 < ahi ∧ blo ≤ p.2 ∧ p.2 < bhi) →
        (∀ p, (l.foldl
          (fun st p =>
            let ai := a.getD p.1 ' '
            let bj := b.getD p.2 ' '
            if ai = bj then
              (st.1, st.2.1, match st.2.2 with | none => some p | some q => some q)
            else if st.1 < realQuickRatioSM [ai] [bj] ∧ st.1 < quickRatioSM [ai] [bj] ∧
                st.1 < smRatio junk [ai] [bj] then
              (smRatio junk [ai] [bj], some p, st.2.2)
            else st) st).2.1 = some p →
            alo ≤ p.1 ∧ p.1 < ahi ∧ blo ≤ p.2 ∧ p.2 < bhi) ∧
        (∀ p, (l.foldl
          (fun st p =>
            let ai := a.getD p.1 ' '
            let bj := b.getD p.2 ' '
            if ai = bj then
              (st.1, st.2.1, match st.2.2 with | none => some p | some q => some q)
            else if st.1 < realQuickRatioSM [ai] [bj] ∧ st.1 < quickRatioSM [ai] [bj] ∧
                st.1 < smRatio junk [ai] [bj] then
              (smRatio junk [ai] [bj], some p, st.2.2)
            else st) st).2.2 = some p →
            alo ≤ p.1 ∧ p.1 < ahi ∧ blo ≤ p.2 ∧ p.2 < bhi) := by
    intro l
    induction l with
    | nil => intro _ st h1 h2; exact ⟨h1, h2⟩
    | cons q qs ih =>
      intro hb st h1 h2
      rw [List.foldl_cons]
      refine ih (fun x hx => hb x (by simp [hx])) _ ?_ ?_
      · intro p hp
        dsimp only at hp
        split at hp
        · exact h1 p hp
        · split at hp
          · simp only [Option.some.injEq] at hp
            subst hp
            exact hb _ (by simp)
          · exact h1 p hp
      · intro p hp
        dsimp only at hp
        split at hp
        · revert hp
          split
          · next heq =>
            intro hp
            simp only [Option.some.injEq] at hp
            subst hp
            exact hb _ (by simp)
          · next q' heq =>
            intro hp
            simp only [Option.some.injEq] at hp
            subst hp
            exact h2 q' heq
        · split at hp
          · exact h2 p hp
          · exact h2 p hp
  exact main _ hmem (37/50, none, none) (by intro p h; cases h) (by intro p h; cases h)

/-- `Differ._fancy_replace` together with the `_fancy_helper` dispatch it
recurses through.  With character elements the ratio of two distinct
one-character sequences is `0`, so the `best_ratio >= cutoff` intraline
branch is unreachable, but it is modelled all the same; `best_ratio >
0.74` with no recorded best pair cannot happen (the threshold only grows
past `0.74` by recording a pair), and that impossible arm yields `[]`. -/
def fancyReplace (junk : Char → Bool) (a b : List Char)
    (alo ahi blo bhi : Nat) : List PyStr :=
  if (fancySearch junk a b alo ahi blo bhi).1 < 3 / 4 then
    match hs : (fancySearch junk a b alo ahi blo bhi).2.2 with
    | none => plainReplace a alo ahi b blo bhi
    | some eqp =>
      -- synchronise on the first equal pair, tagged `'  '`
      (if alo < eqp.1 then
        (if blo < eqp.2 then fancyReplace junk a b alo eqp.1 blo eqp.2
         else dumpTag '-' a alo eqp.1)
       else if blo < eqp.2 then dumpTag '+' b blo eqp.2 else []) ++
      [[' ', ' ', a.getD eqp.1 ' ']] ++
      (if eqp.1 + 1 < ahi then
        (if eqp.2 + 1 < bhi then fancyReplace junk a b (eqp.1 + 1) ahi (eqp.2 + 1) bhi
         else dumpTag '-' a (eqp.1 + 1) ahi)
       else if eqp.2 + 1 < bhi then dumpTag '+' b (eqp.2 + 1) bhi else [])
  else
    match hs : (fancySearch junk a b alo ahi blo bhi).2.1 with
    | none => []
    | some bp =>
      -- intraline markup of the two similar lines
      (if alo < bp.1 then
        (if blo < bp.2 then fancyReplace junk a b alo bp.1 blo bp.2
         else dumpTag '-' a alo bp.1)
       else if blo < bp.2 then dumpTag '+' b blo bp.2 else []) ++
      qformat [a.getD bp.1 ' '] [b.getD bp.2 ' ']
        (intralineTags junk (a.getD bp.1 ' ') (b.getD bp.2 ' ')).1
        (intralineTags junk (a.getD bp.1 ' ') (b.getD bp.2 ' ')).2 ++
      (if bp.1 + 1 < ahi then
        (if bp.2 + 1 < bhi then fancyReplace junk a b (bp.1 + 1) ahi (bp.2 + 1) bhi
         else dumpTag '-' a (bp.1 + 1) ahi)
       else if bp.2 + 1 < bhi then dumpTag '+' b (bp.2 + 1) bhi else [])
termination_by (ahi - alo) + (bhi - blo)
decreasing_by
all_goals {
  first
  | (have hb := (fancySearch_bounds junk a b alo ahi blo bhi).2 _ hs
     omega)
  | (have hb := (fancySearch_bounds junk a b alo ahi blo bhi).1 _ hs
     omega)
}

/-- `Differ().compare(a, b)` with `linejunk=None`,
`charjunk=IS_CHARACTER_JUNK`, over character elements. -/
def differCompare (a b : List Char) : List PyStr :=
  (getOpcodes noJunk a b).flatMap
    (fun op =>
      match op.tag with
      | .replace => fancyReplace isCharacterJunk a b op.a1 op.a2 op.b1 op.b2
      | .delete => dumpTag '-' a op.a1 op.a2
      | .insert => dumpTag '+' b op.b1 op.b2
      | .equal => dumpTag ' ' a op.a1 op.a2)

/-- `html.escape(s, quote=True)`. -/
def htmlEscape (s : PyStr) : PyStr :=
  replaceChar
    (replaceChar
      (replaceChar
        (replaceChar
          (replaceChar s '&' ('&' :: "amp;".data))
          '<' ('&' :: "lt;".data))
        '>' ('&' :: "gt;".data))
      '\x22' ('&' :: "quot;".data))
    '\x27' ('&' :: "#x27;".data)

/-- `LawComparator.generate_unified_html_diff(old_text, new_text)`:
walk the Differ lines; `'  '` lines contribute their stripped, escaped
content, `'- '` and `'+ '` lines wrap it in the deleted/added span, and
empty stripped content or other prefixes (`'? '`) contribute nothing. -/
def generate_unified_html_diff (oldText newText : PyStr) : PyStr :=
  ((differCompare oldText newText).map
    (fun line =>
      match line with
      | c1 :: c2 :: rest =>
        if c1 = ' ' ∧ c2 = ' ' then
          htmlEscape (pstrip rest)
        else if c1 = '-' ∧ c2 = ' ' then
          (if htmlEscape (pstrip rest) ≠ [] then
            "<span class=\"diff-deleted\">".data ++ htmlEscape (pstrip rest) ++
              "</span>".data
          else [])
        else if c1 = '+' ∧ c2 = ' ' then
          (if htmlEscape (pstrip rest) ≠ [] then
            "<span class=\"diff-added\">".data ++ htmlEscape (pstrip rest) ++
              "</span>".data
          else [])
        else []
      | _ => [])).flatten

/-! ### law_comparator.py: compare_articles -/

/-- The chapter/section info block attached to emitted records. -/
structure ChapterInfo where
  chapter_num : Option Int
  chapter_title : PyStr
  section_num : Option Int
  section_title : PyStr
deriving Repr, DecidableEq

/-- `law.get('chapters', {}).get(num, {}).get('title', '')` (`num` may be
`None`, which is absent from the dict). -/
def titleOf (hs : Headers) (n : Option Int) : PyStr :=
  match n with
  | some k => ((hs.find? (fun p => p.1 = k)).map (fun p => p.2)).getD []
  | none => []

/-- The chapter-info block `compare_articles` builds for an article. -/
def chapterInfoOf (chapters sections : Headers) (art : Article) : ChapterInfo :=
  ⟨art.chapter_num, titleOf chapters art.chapter_num,
    art.section_num, titleOf sections art.section_num⟩

/-- A record of the `identical` list. -/
structure IdenticalRec where
  old_number : Int
  new_number : Int
  content : PyStr
  similarity : ℚ
  match_type : MType
deriving Repr, DecidableEq

/-- A record of the `modified` list. -/
structure ModifiedRec where
  old_number : Int
  new_number : Int
  old_content : PyStr
  new_content : PyStr
  similarity : ℚ
  match_type : MType
  old_chapter_info : ChapterInfo
  new_chapter_info : ChapterInfo
  unified_diff_html : PyStr
deriving Repr, DecidableEq

/-- A record of the `new` or `deleted` lists. -/
structure SingleRec where
  article_number : Int
  content : PyStr
  chapter_info : ChapterInfo
deriving Repr, DecidableEq

/-- The statistics block of a comparison result. -/
structure CompStats where
  total_articles_v1 : Nat
  total_articles_v2 : Nat
  identical_count : Nat
  modified_count : Nat
  new_count : Nat
  deleted_count : Nat
  manual_matches_count : Nat
  auto_matches_count : Nat
deriving Repr, DecidableEq

/-- The value returned by `compare_articles` (`new` is a reserved-ish
field name, rendered `newList`). -/
structure ComparisonResult where
  identical : List IdenticalRec
  modified : List ModifiedRec
  newList : List SingleRec
  deleted : List SingleRec
  mapping : List (Int × Int)
  statistics : CompStats
deriving Repr, DecidableEq

/-- One iteration of the match-classification loop of `compare_articles`
(every entry produced by `intelligent_article_matching` has the 4-tuple
shape, so the `len(match_data) == 4` compatibility branch always takes the
4-tuple path).  Accumulates `(identical, modified, deleted, mapping)`. -/
def compStep (law1 law2 : Law)
    (acc : List IdenticalRec × List ModifiedRec × List SingleRec × List (Int × Int))
    (e : MEntry) :
    List IdenticalRec × List ModifiedRec × List SingleRec × List (Int × Int) :=
  if e.new = -1 then
    -- deleted article
    (acc.1, acc.2.1,
      acc.2.2.1 ++ [⟨e.old, contentOf law1.articles e.old,
        chapterInfoOf law1.chapters law1.sections (getArticle law1.articles e.old)⟩],
      acc.2.2.2)
  else
    let c1 := contentOf law1.articles e.old
    let c2 := contentOf law2.articles e.new
    if (49 : ℚ) / 50 ≤ e.sim then
      (acc.1 ++ [⟨e.old, e.new, c1, e.sim, e.mtype⟩], acc.2.1, acc.2.2.1,
        acc.2.2.2 ++ [(e.old, e.new)])
    else
      (acc.1,
        acc.2.1 ++ [⟨e.old, e.new, c1, c2, e.sim, e.mtype,
          chapterInfoOf law1.chapters law1.sections (getArticle law1.articles e.old),
          chapterInfoOf law2.chapters law2.sections (getArticle law2.articles e.new),
          generate_unified_html_diff c1 c2⟩],
        acc.2.2.1, acc.2.2.2 ++ [(e.old, e.new)])

/-- Ascending order on `old_number`. -/
def leOldId (x y : IdenticalRec) : Bool := x.old_number ≤ y.old_number

/-- Ascending order on `old_number`. -/
def leOldMod (x y : ModifiedRec) : Bool := x.old_number ≤ y.old_number

/-- Ascending order on `article_number`. -/
def leNum (x y : SingleRec) : Bool := x.article_number ≤ y.article_number

/-- `LawComparator.compare_articles(law1, law2)` with the comparator state
(threshold, manual matches) explicit. -/
def compare_articles (threshold : ℚ) (manual : List ManualMatch) (law1 law2 : Law) :
    ComparisonResult :=
  let mr := intelligent_article_matching threshold manual law1.articles law2.articles
  let folded := mr.entries.foldl (compStep law1 law2) ([], [], [], [])
  let newRecs : List SingleRec := mr.newArticles.map
    (fun n => ⟨n, contentOf law2.articles n,
      chapterInfoOf law2.chapters law2.sections (getArticle law2.articles n)⟩)
  -- the counters are incremented exactly once per appended record /
  -- per manual- or auto-typed entry
  let stats : CompStats :=
    ⟨law1.articles.length, law2.articles.length,
      folded.1.length, folded.2.1.length, newRecs.length, folded.2.2.1.length,
      (mr.entries.filter (fun e => e.mtype = MType.manual)).length,
      (mr.entries.filter (fun e => e.mtype = MType.auto)).length⟩
  ⟨pySort leOldId folded.1, pySort leOldMod folded.2.1,
    pySort leNum newRecs, pySort leNum folded.2.2.1, folded.2.2.2, stats⟩

/-! ### Chinese numeral correctness (claim C5)

The scan of `_parse_complex_chinese_number` is re-expressed as a left fold
so that the standard numeral forms can be analysed segment by segment. -/

/-- One character step of `_parse_complex_chinese_number` on the loop
state `(result, temp, i)`. -/
def complexStep (st : Nat × Nat × Nat) (c : Char) : Nat × Nat × Nat :=
  match baseLookup c with
  | some v =>
    if v < 10 then (st.1, v, st.2.2 + 1)
    else
      let t1 := if c = '十' ∧ st.2.2 = 0 then 1 else st.2.1
      let t2 := if t1 = 0 then 1 else t1
      (st.1 + t2 * v, 0, st.2.2 + 1)
  | none => (st.1, st.2.1, st.2.2 + 1)

theorem parseComplexAux_eq_fold :
    ∀ (l : List Char) (r t i : Nat),
      parseComplexAux r t i l =
        (if 0 < (l.foldl complexStep (r, t, i)).1 + (l.foldl complexStep (r, t, i)).2.1
         then (l.foldl complexStep (r, t, i)).1 + (l.foldl complexStep (r, t, i)).2.1
         else 0) := by
  intro l
  induction l with
  | nil => intro r t i; rfl
  | cons c cs ih =>
    intro r t i
    rw [List.foldl_cons]
    cases hb : baseLookup c with
    | none =>
      have hstep : complexStep (r, t, i) c = (r, t, i + 1) := by
        simp only [complexStep, hb]
      rw [hstep]
      simp only [parseComplexAux, hb]
      exact ih r t (i + 1)
    | some v =>
      by_cases hv : v < 10
      · have hstep : complexStep (r, t, i) c = (r, v, i + 1) := by
          simp only [complexStep, hb, if_pos hv]
        rw [hstep]
        simp only [parseComplexAux, hb]
        rw [if_pos hv]
        exact ih r v (i + 1)
      · have hstep : complexStep (r, t, i) c =
            (r + (if (if c = '十' ∧ i = 0 then 1 else t) = 0 then 1
              else (if c = '十' ∧ i = 0 then 1 else t)) * v, 0, i + 1) := by
          simp only [complexStep, hb, if_neg hv]
        rw [hstep]
        simp only [parseComplexAux, hb]
        rw [if_neg hv]
        exact ih _ 0 (i + 1)

/-- The standard digit characters 一..九 (0 renders as 零, unused by the
generator except as the zero placeholder). -/
def digitChar : Nat → Char
  | 1 => '一'
  | 2 => '二'
  | 3 => '三'
  | 4 => '四'
  | 5 => '五'
  | 6 => '六'
  | 7 => '七'
  | 8 => '八'
  | 9 => '九'
  | _ => '零'

/-- The standard (well-formed) Chinese numeral for `1 ≤ n ≤ 9999`:
thousands digit + 千, hundreds digit + 百, tens digit + 十 (a bare 十 for
10–19), units digit, with the single 零 placeholder for an internal run of
zeros.  This formalises "well-formed Chinese numeral denoting n" for the
supported digit/unit character set. -/
def stdChinese (n : Nat) : List Char :=
  let d3 := n / 1000
  let d2 := n % 1000 / 100
  let d1 := n % 100 / 10
  let d0 := n % 10
  (if 0 < d3 then [digitChar d3, '千'] else []) ++
  ((if 0 < d2 then [digitChar d2, '百']
    else if 0 < d3 ∧ (0 < d1 ∨ 0 < d0) then ['零'] else []) ++
   ((if 0 < d1 then (if d1 = 1 ∧ d3 = 0 ∧ d2 = 0 then ['十'] else [digitChar d1, '十'])
     else if 0 < d2 ∧ 0 < d0 then ['零'] else []) ++
    (if 0 < d0 then [digitChar d0] else [])))

theorem digitChar_lookup (d : Nat) (h1 : 1 ≤ d) (h2 : d ≤ 9) :
    baseLookup (digitChar d) = some d := by
  interval_cases d <;> rfl

theorem step_digit (st : Nat × Nat × Nat) (d : Nat) (h1 : 1 ≤ d) (h2 : d ≤ 9) :
    complexStep st (digitChar d) = (st.1, d, st.2.2 + 1) := by
  unfold complexStep
  rw [digitChar_lookup d h1 h2]
  dsimp only
  rw [if_pos (show d < 10 by omega)]

theorem step_qian (st : Nat × Nat × Nat) :
    complexStep st '千' =
      (st.1 + (if st.2.1 = 0 then 1 else st.2.1) * 1000, 0, st.2.2 + 1) := by
  rfl

theorem step_bai (st : Nat × Nat × Nat) :
    complexStep st '百' =
      (st.1 + (if st.2.1 = 0 then 1 else st.2.1) * 100, 0, st.2.2 + 1) := by
  rfl

theorem step_ling (st : Nat × Nat × Nat) :
    complexStep st '零' = (st.1, 0, st.2.2 + 1) := by
  rfl

theorem step_shi (st : Nat × Nat × Nat) (hi : st.2.2 ≠ 0) :
    complexStep st '十' =
      (st.1 + (if st.2.1 = 0 then 1 else st.2.1) * 10, 0, st.2.2 + 1) := by
  obtain ⟨r, t, i⟩ := st
  simp only at hi
  have h10 : baseLookup '十' = some 10 := rfl
  simp only [complexStep, h10]
  rw [if_neg (by omega : ¬ (10 : Nat) < 10)]
  simp [hi]

/-- The value produced by the scan from state `st` over the remaining
characters: final `result + temp`. -/
def endSum (l : List Char) (st : Nat × Nat × Nat) : Nat :=
  (l.foldl complexStep st).1 + (l.foldl complexStep st).2.1

theorem endSum_nil (r t i : Nat) : endSum [] (r, t, i) = r + t := rfl

theorem endSum_digit (rest : List Char) (r t i d : Nat) (h1 : 1 ≤ d) (h2 : d ≤ 9) :
    endSum (digitChar d :: rest) (r, t, i) = endSum rest (r, d, i + 1) := by
  unfold endSum
  rw [List.foldl_cons, step_digit _ d h1 h2]

theorem endSum_qian (rest : List Char) (r t i : Nat) :
    endSum ('千' :: rest) (r, t, i) =
      endSum rest (r + (if t = 0 then 1 else t) * 1000, 0, i + 1) := by
  unfold endSum
  rw [List.foldl_cons, step_qian]

theorem endSum_bai (rest : List Char) (r t i : Nat) :
    endSum ('百' :: rest) (r, t, i) =
      endSum rest (r + (if t = 0 then 1 else t) * 100, 0, i + 1) := by
  unfold endSum
  rw [List.foldl_cons, step_bai]

theorem endSum_shi (rest : List Char) (r t i : Nat) (hi : i ≠ 0) :
    endSum ('十' :: rest) (r, t, i) =
      endSum rest (r + (if t = 0 then 1 else t) * 10, 0, i + 1) := by
  unfold endSum
  rw [List.foldl_cons, step_shi _ (by simpa using hi)]

theorem endSum_shi0 (rest : List Char) (r : Nat) :
    endSum ('十' :: rest) (r, 0, 0) = endSum rest (r + 10, 0, 1) := by
  unfold endSum
  rw [List.foldl_cons]
  rfl

theorem endSum_ling (rest : List Char) (r t i : Nat) :
    endSum ('零' :: rest) (r, t, i) = endSum rest (r, 0, i + 1) := by
  unfold endSum
  rw [List.foldl_cons, step_ling]

/-- `convert_chinese_number` on a string of at least two characters runs
the complex scan. -/
theorem convert_ge2 (c1 c2 : Char) (rest : List Char) :
    convert_chinese_number (c1 :: c2 :: rest) =
      if 0 < endSum (c1 :: c2 :: rest) (0, 0, 0)
      then endSum (c1 :: c2 :: rest) (0, 0, 0) else 0 := by
  show parseComplexAux 0 0 0 (c1 :: c2 :: rest) = _
  rw [parseComplexAux_eq_fold]
  rfl

theorem convert_single_digit (d : Nat) (h1 : 1 ≤ d) (h2 : d ≤ 9) :
    convert_chinese_number [digitChar d] = d := by
  show (match baseLookup (digitChar d) with
    | some v => v
    | none => parseComplexAux 0 0 0 [digitChar d]) = d
  rw [digitChar_lookup d h1 h2]

/-- Folding the units segment from a `temp = 0` state adds `d0`. -/
theorem endSum_units (r i d0 : Nat) (h0 : d0 ≤ 9) :
    endSum (if 0 < d0 then [digitChar d0] else []) (r, 0, i) = r + d0 := by
  by_cases hd0 : 0 < d0
  · rw [if_pos hd0, endSum_digit _ _ _ _ _ (by omega) h0, endSum_nil]
  · rw [if_neg hd0, endSum_nil]
    show r + 0 = r + d0
    omega

/-- The tail of a standard numeral after the thousands/hundreds prefix:
folding the tens and units segments (with an optional leading 零 pad,
which is a no-op on the scan state) adds `d1 * 10 + d0`. -/
theorem endSum_tail (r i d1 d0 : Nat) (hi : 0 < i) (h1 : d1 ≤ 9) (h0 : d0 ≤ 9)
    (z : Prop) [Decidable z] :
    endSum
      ((if 0 < d1 then [digitChar d1, '十'] else if z then ['零'] else []) ++
        (if 0 < d0 then [digitChar d0] else [])) (r, 0, i) =
      r + d1 * 10 + d0 := by
  by_cases hd1 : 0 < d1
  · rw [if_pos hd1]
    show endSum (digitChar d1 :: '十' ::
      (if 0 < d0 then [digitChar d0] else [])) (r, 0, i) = _
    rw [endSum_digit _ _ _ _ _ (by omega) h1]
    rw [endSum_shi _ _ _ _ (by omega)]
    rw [if_neg (by omega : ¬ d1 = 0)]
    rw [endSum_units _ _ _ h0]
  · rw [if_neg hd1]
    have hd1z : d1 = 0 := by omega
    by_cases hz : z
    · rw [if_pos hz]
      show endSum ('零' :: (if 0 < d0 then [digitChar d0] else [])) (r, 0, i) = _
      rw [endSum_ling, endSum_units _ _ _ h0]
      omega
    · rw [if_neg hz]
      show endSum (if 0 < d0 then [digitChar d0] else []) (r, 0, i) = _
      rw [endSum_units _ _ _ h0]
      omega

/-- Correctness of the scan on the standard numeral built from four
digits. -/
theorem convert_digits (d3 d2 d1 d0 : Nat)
    (h3 : d3 ≤ 9) (h2 : d2 ≤ 9) (h1 : d1 ≤ 9) (h0 : d0 ≤ 9)
    (hpos : 0 < d3 * 1000 + d2 * 100 + d1 * 10 + d0) :
    convert_chinese_number
      ((if 0 < d3 then [digitChar d3, '千'] else []) ++
        ((if 0 < d2 then [digitChar d2, '百']
          else if 0 < d3 ∧ (0 < d1 ∨ 0 < d0) then ['零'] else []) ++
          ((if 0 < d1 then
              (if d1 = 1 ∧ d3 = 0 ∧ d2 = 0 then ['十'] else [digitChar d1, '十'])
            else if 0 < d2 ∧ 0 < d0 then ['零'] else []) ++
            (if 0 < d0 then [digitChar d0] else [])))) =
      d3 * 1000 + d2 * 100 + d1 * 10 + d0 := by
  by_cases hA : 0 < d3
  · rw [if_pos hA]
    rw [show (if d1 = 1 ∧ d3 = 0 ∧ d2 = 0 then (['十'] : List Char)
        else [digitChar d1, '十']) = [digitChar d1, '十'] from if_neg (by omega)]
    by_cases hB : 0 < d2
    · rw [if_pos hB]
      simp only [List.cons_append, List.nil_append]
      rw [convert_ge2]
      rw [endSum_digit _ _ _ _ _ (by omega) h3]
      rw [endSum_qian, if_neg (by omega : ¬ d3 = 0)]
      rw [endSum_digit _ _ _ _ _ (by omega) h2]
      rw [endSum_bai, if_neg (by omega : ¬ d2 = 0)]
      rw [endSum_tail _ _ _ _ (by omega) h1 h0]
      rw [if_pos (by omega)]
      omega
    · rw [if_neg hB]
      by_cases hT : 0 < d1 ∨ 0 < d0
      · rw [if_pos (by exact ⟨hA, hT⟩)]
        simp only [List.cons_append, List.nil_append]
        rw [convert_ge2]
        rw [endSum_digit _ _ _ _ _ (by omega) h3]
        rw [endSum_qian, if_neg (by omega : ¬ d3 = 0)]
        rw [endSum_ling]
        rw [endSum_tail _ _ _ _ (by omega) h1 h0]
        rw [if_pos (by omega)]
        omega
      · rw [if_neg (by omega : ¬ (0 < d3 ∧ (0 < d1 ∨ 0 < d0)))]
        rw [if_neg (by omega : ¬ 0 < d1), if_neg (by omega : ¬ (0 < d2 ∧ 0 < d0)),
          if_neg (by omega : ¬ 0 < d0)]
        simp only [List.cons_append, List.nil_append, List.append_nil]
        rw [convert_ge2]
        rw [endSum_digit _ _ _ _ _ (by omega) h3]
        rw [endSum_qian, if_neg (by omega : ¬ d3 = 0)]
        rw [endSum_nil]
        rw [if_pos (by omega)]
        omega
  · rw [if_neg hA]
    rw [if_neg (by omega : ¬ (0 < d3 ∧ (0 < d1 ∨ 0 < d0)))]
    by_cases hB : 0 < d2
    · rw [if_pos hB]
      rw [show (if d1 = 1 ∧ d3 = 0 ∧ d2 = 0 then (['十'] : List Char)
          else [digitChar d1, '十']) = [digitChar d1, '十'] from if_neg (by omega)]
      simp only [List.cons_append, List.nil_append]
      rw [convert_ge2]
      rw [endSum_digit _ _ _ _ _ (by omega) h2]
      rw [endSum_bai, if_neg (by omega : ¬ d2 = 0)]
      rw [endSum_tail _ _ _ _ (by omega) h1 h0]
      rw [if_pos (by omega)]
      omega
    · rw [if_neg hB]
      simp only [List.nil_append]
      by_cases hC : 0 < d1
      · by_cases hS : d1 = 1 ∧ d3 = 0 ∧ d2 = 0
        · rw [if_pos hC, if_pos hS]
          by_cases hD : 0 < d0
          · rw [if_pos hD]
            simp only [List.cons_append, List.nil_append]
            rw [convert_ge2]
            rw [endSum_shi0]
            rw [endSum_digit _ _ _ _ _ (by omega) h0]
            rw [endSum_nil]
            rw [if_pos (by omega)]
            omega
          · rw [if_neg hD]
            simp only [List.append_nil]
            have hc : convert_chinese_number ['十'] = 10 := rfl
            rw [hc]
            omega
        · rw [if_pos hC, if_neg hS]
          simp only [List.cons_append, List.nil_append]
          rw [convert_ge2]
          rw [endSum_digit _ _ _ _ _ (by omega) h1]
          rw [endSum_shi _ _ _ _ (by omega)]
          rw [if_neg (by omega : ¬ d1 = 0)]
          rw [endSum_units _ _ _ h0]
          rw [if_pos (by omega)]
          omega
      · rw [if_neg hC, if_neg (by omega : ¬ (0 < d2 ∧ 0 < d0))]
        simp only [List.nil_append]
        by_cases hD : 0 < d0
        · rw [if_pos hD]
          rw [convert_single_digit _ (by omega) h0]
          omega
        · exact absurd hpos (by omega)

/-- Correctness of `convert_chinese_number` on every standard numeral up
to 9999 (claim C5's quantified part). -/
theorem convert_stdChinese (n : Nat) (hn1 : 1 ≤ n) (hn2 : n ≤ 9999) :
    convert_chinese_number (stdChinese n) = n := by
  have hd : n = n / 1000 * 1000 + n % 1000 / 100 * 100 + n % 100 / 10 * 10 + n % 10 := by
    omega
  have := convert_digits (n / 1000) (n % 1000 / 100) (n % 100 / 10) (n % 10)
    (by omega) (by omega) (by omega) (by omega) (by omega)
  unfold stdChinese
  conv_rhs => rw [hd]
  exact this

/-! ### Bounds on calculate_similarity (claim C7) -/

theorem calcRatio_nonneg (m t : Nat) : 0 ≤ calcRatio m t := by
  unfold calcRatio
  split
  · positivity
  · norm_num

theorem smRatio_nonneg (junk : Char → Bool) (a b : List Char) :
    0 ≤ smRatio junk a b :=
  calcRatio_nonneg _ _

theorem smRatio_le_one (junk : Char → Bool) (a b : List Char) :
    smRatio junk a b ≤ 1 := by
  unfold smRatio calcRatio
  have hm := totalMatched_le junk a b
  split
  · next ht =>
    rw [div_le_one (by positivity)]
    push_cast
    have h1 : (totalMatched junk a b : ℚ) ≤ a.length := by exact_mod_cast hm.1
    have h2 : (totalMatched junk a b : ℚ) ≤ b.length := by exact_mod_cast hm.2
    linarith
  · exact le_refl 1

theorem calculate_similarity_nonneg (t1 t2 : PyStr) :
    0 ≤ calculate_similarity t1 t2 := by
  unfold calculate_similarity
  split
  · norm_num
  · exact smRatio_nonneg _ _ _

theorem calculate_similarity_le_one (t1 t2 : PyStr) :
    calculate_similarity t1 t2 ≤ 1 := by
  unfold calculate_similarity
  split
  · norm_num
  · exact smRatio_le_one _ _ _

/-! ### Sortedness of pySort -/

theorem pySort_sorted {α : Type} (le : α → α → Bool)
    (htot : ∀ x y, le x y = true ∨ le y x = true)
    (htrans : ∀ x y z, le x y = true → le y z = true → le x z = true)
    (l : List α) :
    (pySort le l).Sorted (fun a b => le a b = true) :=
  letI : IsTotal α (fun a b => le a b = true) := ⟨htot⟩
  letI : IsTrans α (fun a b => le a b = true) := ⟨htrans⟩
  List.sorted_insertionSort _ l

/-! ### Characterisation of find_best_match -/

/-- Similarity of the target content against one candidate entry. -/
def simTo (target : PyStr) (p : Int × Article) : ℚ :=
  calculate_similarity target p.2.content

/-- The candidates not yet consumed, in dict (insertion) order. -/
def eligibleIn (cands : Articles) (used : List Int) : Articles :=
  cands.filter (fun p => decide (p.1 ∉ used))

/-- The maximum similarity over a candidate list (`0` for the empty
list; similarities are non-negative, so this is the true maximum). -/
def maxSim (target : PyStr) (l : Articles) : ℚ :=
  (l.map (simTo target)).foldr max 0

/-- Reference description of the automatic selection, following the
spec's wording as amended: among the unconsumed candidates, the maximum
similarity, attained first (in the new document's insertion order), is
selected provided it is positive. -/
def specBest (target : PyStr) (cands : Articles) (used : List Int) :
    Option (Int × ℚ) :=
  if 0 < maxSim target (eligibleIn cands used) then
    ((eligibleIn cands used).find?
      (fun p => simTo target p = maxSim target (eligibleIn cands used))).map
      (fun p => (p.1, maxSim target (eligibleIn cands used)))
  else none

theorem foldr_max_attained (l : List ℚ) :
    l.foldr max 0 = 0 ∨ l.foldr max 0 ∈ l := by
  induction l with
  | nil => left; rfl
  | cons x xs ih =>
    rw [List.foldr_cons]
    rcases max_choice x (xs.foldr max 0) with h | h
    · right
      rw [h]
      exact List.mem_cons_self x xs
    · rw [h]
      rcases ih with h0 | hm
      · left
        exact h0
      · right
        exact List.mem_cons_of_mem x hm

theorem le_foldr_max (l : List ℚ) (x : ℚ) (hx : x ∈ l) : x ≤ l.foldr max 0 := by
  induction l with
  | nil => cases hx
  | cons y ys ih =>
    rw [List.foldr_cons]
    rcases List.mem_cons.mp hx with rfl | hx'
    · exact le_max_left _ _
    · exact le_trans (ih hx') (le_max_right _ _)

theorem maxSim_nonneg (target : PyStr) (l : Articles) : 0 ≤ maxSim target l := by
  unfold maxSim
  induction l with
  | nil => norm_num
  | cons p ps ih =>
    rw [List.map_cons, List.foldr_cons]
    exact le_trans ih (le_max_right _ _)

theorem maxSim_attained (target : PyStr) (l : Articles)
    (h : 0 < maxSim target l) : ∃ p ∈ l, simTo target p = maxSim target l := by
  rcases foldr_max_attained (l.map (simTo target)) with h0 | hm
  · rw [maxSim] at h
    rw [h0] at h
    exact absurd h (lt_irrefl 0)
  · rcases List.mem_map.mp hm with ⟨p, hp, hpe⟩
    exact ⟨p, hp, hpe⟩

theorem fbm_fold (target : PyStr) (used : List Int) :
    ∀ (cands : Articles) (acc : Int × ℚ), 0 ≤ acc.2 →
      cands.foldl (fbmStep target used) acc =
        (if acc.2 < maxSim target (eligibleIn cands used) then
          (match (eligibleIn cands used).find?
              (fun p => simTo target p = maxSim target (eligibleIn cands used)) with
            | some p => (p.1, maxSim target (eligibleIn cands used))
            | none => acc)
        else acc) := by
  intro cands
  induction cands with
  | nil =>
    intro acc hacc
    rw [List.foldl_nil]
    rw [if_neg]
    show ¬ acc.2 < maxSim target (eligibleIn [] used)
    have h0 : maxSim target (eligibleIn [] used) = 0 := rfl
    rw [h0]
    exact not_lt.mpr hacc
  | cons p ps ih =>
    intro acc hacc
    rw [List.foldl_cons]
    by_cases hpu : p.1 ∈ used
    · have hstep : fbmStep target used acc p = acc := by
        unfold fbmStep
        rw [if_pos hpu]
      have helig : eligibleIn (p :: ps) used = eligibleIn ps used := by
        simp [eligibleIn, hpu]
      rw [hstep, ih acc hacc, helig]
    · have helig : eligibleIn (p :: ps) used = p :: eligibleIn ps used := by
        simp [eligibleIn, hpu]
      have hM : maxSim target (p :: eligibleIn ps used) =
          max (simTo target p) (maxSim target (eligibleIn ps used)) := by
        simp [maxSim]
      by_cases hup : acc.2 < simTo target p
      · have hstep : fbmStep target used acc p = (p.1, simTo target p) := by
          unfold fbmStep
          rw [if_neg hpu,
            if_pos (show acc.2 < calculate_similarity target p.2.content from hup)]
          rfl
        rw [hstep, ih _ (calculate_similarity_nonneg _ _), helig, hM]
        rcases le_or_lt (maxSim target (eligibleIn ps used)) (simTo target p) with hle | hlt
        · rw [max_eq_left hle]
          rw [if_neg (by simpa using not_lt.mpr hle)]
          rw [if_pos hup]
          rw [List.find?_cons_of_pos _ (by simp)]
        · rw [max_eq_right (le_of_lt hlt)]
          rw [if_pos (by simpa using hlt)]
          rw [if_pos (lt_trans hup hlt)]
          rw [List.find?_cons_of_neg _ (by simp [ne_of_lt hlt])]
          have hMpos : 0 < maxSim target (eligibleIn ps used) :=
            lt_of_le_of_lt (le_trans hacc (le_of_lt hup)) hlt
          obtain ⟨q, hq, hqe⟩ := maxSim_attained target _ hMpos
          have hfind : ((eligibleIn ps used).find?
              (fun x => simTo target x = maxSim target (eligibleIn ps used))).isSome := by
            rw [List.find?_isSome]
            exact ⟨q, hq, by simp [hqe]⟩
          obtain ⟨q0, hq0⟩ := Option.isSome_iff_exists.mp hfind
          rw [hq0]
      · have hstep : fbmStep target used acc p = acc := by
          unfold fbmStep
          rw [if_neg hpu,
            if_neg (show ¬ acc.2 < calculate_similarity target p.2.content from hup)]
        rw [hstep, ih acc hacc, helig, hM]
        by_cases hMM : acc.2 < maxSim target (eligibleIn ps used)
        · rw [if_pos hMM]
          have hmax : max (simTo target p) (maxSim target (eligibleIn ps used)) =
              maxSim target (eligibleIn ps used) :=
            max_eq_right (le_trans (not_lt.mp hup) (le_of_lt hMM))
          rw [hmax]
          rw [if_pos hMM]
          rw [List.find?_cons_of_neg _ (by
            simp only [decide_eq_true_eq]
            intro hco
            rw [hco] at hup
            exact hup hMM)]
        · rw [if_neg hMM]
          rw [if_neg (by
            refine not_lt.mpr (max_le (not_lt.mp hup) (not_lt.mp hMM)))]

/-- `find_best_match` computes exactly the spec-level best candidate:
the first eligible candidate attaining the (positive) maximum similarity,
or `(-1, 0.0)` when every eligible candidate has similarity 0 (in
particular when none remain). -/
theorem find_best_match_eq (target : PyStr) (cands : Articles) (used : List Int) :
    find_best_match target cands used =
      match specBest target cands used with
      | some bs => bs
      | none => (-1, 0) := by
  unfold find_best_match specBest
  rw [fbm_fold target used cands (-1, 0) (by norm_num)]
  by_cases hM : 0 < maxSim target (eligibleIn cands used)
  · rw [if_pos (by simpa using hM), if_pos hM]
    obtain ⟨q, hq, hqe⟩ := maxSim_attained target _ hM
    have hfind : ((eligibleIn cands used).find?
        (fun x => simTo target x = maxSim target (eligibleIn cands used))).isSome := by
      rw [List.find?_isSome]
      exact ⟨q, hq, by simp [hqe]⟩
    obtain ⟨q0, hq0⟩ := Option.isSome_iff_exists.mp hfind
    rw [hq0]
    rfl
  · rw [if_neg (by simpa using hM), if_neg hM]

/-! ### Characterisation of the manual phase -/

/-- The recording condition of the manual phase: both referenced numbers
exist (and nothing else — prior consumption is not checked). -/
def manualOK (a1 a2 : Articles) (mm : ManualMatch) : Bool :=
  hasKey a1 mm.old_number && hasKey a2 mm.new_number

/-- The manual entry recorded for an accepted pair. -/
def mkManualEntry (a1 a2 : Articles) (mm : ManualMatch) : MEntry :=
  ⟨mm.old_number, mm.new_number,
    calculate_similarity (contentOf a1 mm.old_number) (contentOf a2 mm.new_number),
    MType.manual⟩

theorem manualPhase_aux (a1 a2 : Articles) :
    ∀ (ms : List ManualMatch) (acc : List MEntry × List Int × List Int × Nat),
      (ms.foldl (manualStep a1 a2) acc).1 =
          acc.1 ++ (ms.filter (manualOK a1 a2)).map (mkManualEntry a1 a2) ∧
        (∀ x : Int, x ∈ (ms.foldl (manualStep a1 a2) acc).2.1 ↔
          x ∈ acc.2.1 ∨ x ∈ (ms.filter (manualOK a1 a2)).map
            (fun mm => mm.old_number)) ∧
        (∀ x : Int, x ∈ (ms.foldl (manualStep a1 a2) acc).2.2.1 ↔
          x ∈ acc.2.2.1 ∨ x ∈ (ms.filter (manualOK a1 a2)).map
            (fun mm => mm.new_number)) ∧
        (ms.foldl (manualStep a1 a2) acc).2.2.2 =
          acc.2.2.2 + (ms.filter (manualOK a1 a2)).length := by
  intro ms
  induction ms with
  | nil =>
    intro acc
    refine ⟨by simp, fun x => by simp, fun x => by simp, by simp⟩
  | cons mm ms ih =>
    intro acc
    rw [List.foldl_cons]
    by_cases hok : manualOK a1 a2 mm = true
    · have hcond : hasKey a1 mm.old_number ∧ hasKey a2 mm.new_number := by
        simpa [manualOK, Bool.and_eq_true] using hok
      have hstep : manualStep a1 a2 acc mm =
          (acc.1 ++ [mkManualEntry a1 a2 mm],
            acc.2.1.insert mm.old_number, acc.2.2.1.insert mm.new_number,
            acc.2.2.2 + 1) := by
        unfold manualStep
        rw [if_pos hcond]
        rfl
      rw [hstep]
      obtain ⟨ih1, ih2, ih3, ih4⟩ := ih _
      rw [List.filter_cons_of_pos (by simpa using hok)]
      refine ⟨?_, ?_, ?_, ?_⟩
      · rw [ih1]
        simp
      · intro x
        rw [ih2 x]
        simp only [List.mem_insert_iff, List.map_cons, List.mem_cons]
        tauto
      · intro x
        rw [ih3 x]
        simp only [List.mem_insert_iff, List.map_cons, List.mem_cons]
        tauto
      · rw [ih4]
        simp only [List.length_cons]
        omega
    · have hcond : ¬ (hasKey a1 mm.old_number ∧ hasKey a2 mm.new_number) := by
        simpa [manualOK, Bool.and_eq_true] using hok
      have hstep : manualStep a1 a2 acc mm = acc := by
        unfold manualStep
        rw [if_neg hcond]
      rw [hstep]
      obtain ⟨ih1, ih2, ih3, ih4⟩ := ih acc
      rw [List.filter_cons_of_neg (by simpa using hok)]
      exact ⟨ih1, ih2, ih3, ih4⟩

/-- The manual phase records exactly the pairs whose two numbers exist:
the entries are the accepted pairs in order, the consumed sets are their
old/new numbers, and the count is their number.  Skipped pairs leave
everything unchanged. -/
theorem manualPhase_spec (a1 a2 : Articles) (manual : List ManualMatch) :
    (manualPhase a1 a2 manual).1 =
        (manual.filter (manualOK a1 a2)).map (mkManualEntry a1 a2) ∧
      (∀ x : Int, x ∈ (manualPhase a1 a2 manual).2.1 ↔
        x ∈ (manual.filter (manualOK a1 a2)).map (fun mm => mm.old_number)) ∧
      (∀ x : Int, x ∈ (manualPhase a1 a2 manual).2.2.1 ↔
        x ∈ (manual.filter (manualOK a1 a2)).map (fun mm => mm.new_number)) ∧
      (manualPhase a1 a2 manual).2.2.2 =
        (manual.filter (manualOK a1 a2)).length := by
  obtain ⟨h1, h2, h3, h4⟩ := manualPhase_aux a1 a2 manual ([], [], [], 0)
  refine ⟨by simpa using h1, ?_, ?_, by simpa using h4⟩
  · intro x
    rw [show (manualPhase a1 a2 manual).2.1 =
      (manual.foldl (manualStep a1 a2) ([], [], [], 0)).2.1 from rfl]
    rw [h2 x]
    simp
  · intro x
    rw [show (manualPhase a1 a2 manual).2.2.1 =
      (manual.foldl (manualStep a1 a2) ([], [], [], 0)).2.2.1 from rfl]
    rw [h3 x]
    simp

/-! ### Characterisation of the automatic phase -/

theorem keysOf_eligible (cands : Articles) (used : List Int) (k : Int)
    (h : k ∈ keysOf (eligibleIn cands used)) : k ∈ keysOf cands ∧ k ∉ used := by
  unfold keysOf eligibleIn at *
  rcases List.mem_map.mp h with ⟨p, hp, rfl⟩
  have hmem := List.mem_of_mem_filter hp
  have hpr := List.of_mem_filter hp
  refine ⟨List.mem_map.mpr ⟨p, hmem, rfl⟩, ?_⟩
  simpa using hpr

theorem specBest_mem (target : PyStr) (cands : Articles) (used : List Int)
    (bs : Int × ℚ) (h : specBest target cands used = some bs) :
    bs.1 ∈ keysOf (eligibleIn cands used) ∧ 0 < bs.2 := by
  unfold specBest at h
  by_cases hpos : 0 < maxSim target (eligibleIn cands used)
  · rw [if_pos hpos] at h
    cases hf : (eligibleIn cands used).find?
        (fun p => simTo target p = maxSim target (eligibleIn cands used)) with
    | none =>
      rw [hf] at h
      cases h
    | some p =>
      rw [hf] at h
      have hmem : p ∈ eligibleIn cands used := List.mem_of_find?_eq_some hf
      have hb : (p.1, maxSim target (eligibleIn cands used)) = bs :=
        Option.some.inj h
      refine ⟨?_, ?_⟩
      · rw [← hb]
        exact List.mem_map.mpr ⟨p, hmem, rfl⟩
      · rw [← hb]
        exact hpos
  · rw [if_neg hpos] at h
    cases h

/-- Reference step of the automatic phase, written from the spec's wording
as amended: the maximum similarity over the unconsumed candidates is
selected (first attainer in candidate-dict order) provided it is positive;
a selection at or above the threshold is recorded as `auto` and consumed,
anything else leaves the old article unmatched. -/
def specAutoStep (remaining2 : Articles) (threshold : ℚ)
    (articles1 : Articles) (acc : List MEntry × List Int) (n : Int) :
    List MEntry × List Int :=
  match specBest (contentOf articles1 n) remaining2 acc.2 with
  | some bs =>
    if threshold ≤ bs.2 then
      (acc.1 ++ [⟨n, bs.1, bs.2, MType.auto⟩], acc.2.insert bs.1)
    else (acc.1 ++ [⟨n, -1, 0, MType.nomatch⟩], acc.2)
  | none => (acc.1 ++ [⟨n, -1, 0, MType.nomatch⟩], acc.2)

theorem autoStep_eq_spec (remaining2 : Articles) (threshold : ℚ)
    (articles1 : Articles) (hkeys : ∀ k ∈ keysOf remaining2, (0:Int) ≤ k)
    (acc : List MEntry × List Int) (n : Int) :
    autoStep remaining2 threshold articles1 acc n =
      specAutoStep remaining2 threshold articles1 acc n := by
  unfold autoStep specAutoStep
  rw [find_best_match_eq]
  cases hs : specBest (contentOf articles1 n) remaining2 acc.2 with
  | none =>
    rw [if_neg]
    intro hc
    exact hc.1 rfl
  | some bs =>
    obtain ⟨hmem, hpos⟩ := specBest_mem _ _ _ _ hs
    have hge : (0:Int) ≤ bs.1 := hkeys _ (keysOf_eligible _ _ _ hmem).1
    have hne : bs.1 ≠ -1 := by
      intro hE
      rw [hE] at hge
      norm_num at hge
    dsimp only
    by_cases ht : threshold ≤ bs.2
    · rw [if_pos ⟨hne, ht⟩, if_pos ht]
    · rw [if_neg, if_neg ht]
      intro hc
      exact ht hc.2

theorem autoFold_eq_spec (remaining2 : Articles) (threshold : ℚ)
    (articles1 : Articles) (hkeys : ∀ k ∈ keysOf remaining2, (0:Int) ≤ k)
    (l : List Int) (acc : List MEntry × List Int) :
    l.foldl (autoStep remaining2 threshold articles1) acc =
      l.foldl (specAutoStep remaining2 threshold articles1) acc := by
  induction l generalizing acc with
  | nil => rfl
  | cons n ns ih =>
    rw [List.foldl_cons, List.foldl_cons,
      autoStep_eq_spec remaining2 threshold articles1 hkeys, ih]

theorem sortedKeys_sorted (l : List Int) :
    List.Sorted (fun x y : Int => x ≤ y) (sortedKeys l) := by
  have h := pySort_sorted (fun x y : Int => decide (x ≤ y))
    (fun x y => by rcases le_total x y with h | h <;> simp [h])
    (fun x y z hxy hyz => by
      simp only [decide_eq_true_eq] at *
      exact le_trans hxy hyz) l
  refine List.Pairwise.imp ?_ h
  intro a b hab
  simpa using hab

theorem sortedKeys_perm (l : List Int) : (sortedKeys l).Perm l :=
  pySort_perm _ l

/-! ### The matched entries of an alignment -/

/-- The matched entries of an alignment: those not classified `none`. -/
def matchedOf (l : List MEntry) : List MEntry :=
  l.filter (fun e => decide (e.mtype ≠ MType.nomatch))

theorem matchedOf_append (l1 l2 : List MEntry) :
    matchedOf (l1 ++ l2) = matchedOf l1 ++ matchedOf l2 :=
  List.filter_append l1 l2

theorem matchedOf_manual (a1 a2 : Articles) (ms : List ManualMatch) :
    matchedOf (ms.map (mkManualEntry a1 a2)) = ms.map (mkManualEntry a1 a2) := by
  rw [matchedOf, List.filter_eq_self]
  intro e he
  rcases List.mem_map.mp he with ⟨mm, hmm, rfl⟩
  simp [mkManualEntry]

/-- Shape of one automatic step: either the old article is recorded as
unmatched, or a fresh (unconsumed) new number is recorded and consumed. -/
theorem autoStep_shape (remaining2 : Articles) (threshold : ℚ)
    (articles1 : Articles) (acc : List MEntry × List Int) (n : Int) :
    autoStep remaining2 threshold articles1 acc n =
        (acc.1 ++ [⟨n, -1, 0, MType.nomatch⟩], acc.2) ∨
      ∃ bs : Int × ℚ, bs.1 ∈ keysOf remaining2 ∧ bs.1 ∉ acc.2 ∧
        autoStep remaining2 threshold articles1 acc n =
          (acc.1 ++ [⟨n, bs.1, bs.2, MType.auto⟩], acc.2.insert bs.1) := by
  unfold autoStep
  rw [find_best_match_eq]
  cases hs : specBest (contentOf articles1 n) remaining2 acc.2 with
  | none =>
    left
    dsimp only
    rw [if_neg]
    intro hc
    exact hc.1 rfl
  | some bs =>
    obtain ⟨hmem, hpos⟩ := specBest_mem _ _ _ _ hs
    have hnu : bs.1 ∉ acc.2 := (keysOf_eligible _ _ _ hmem).2
    have hky : bs.1 ∈ keysOf remaining2 := (keysOf_eligible _ _ _ hmem).1
    dsimp only
    by_cases hcond : bs.1 ≠ -1 ∧ threshold ≤ bs.2
    · right
      exact ⟨bs, hky, hnu, by rw [if_pos hcond]⟩
    · left
      rw [if_neg hcond]

/-- Every automatic step appends exactly one entry, whose old number is
the processed key. -/
theorem autoFold_olds (remaining2 : Articles) (threshold : ℚ)
    (articles1 : Articles) :
    ∀ (l : List Int) (acc : List MEntry × List Int),
      ((l.foldl (autoStep remaining2 threshold articles1) acc).1).map
        (fun e => e.old) = acc.1.map (fun e => e.old) ++ l := by
  intro l
  induction l with
  | nil => intro acc; simp
  | cons n ns ih =>
    intro acc
    rw [List.foldl_cons]
    rcases autoStep_shape remaining2 threshold articles1 acc n with
      h | ⟨bs, _, _, h⟩ <;>
      rw [h, ih] <;> simp

/-- Consumption invariant of the automatic fold: matched new numbers
(together with an ambient list `pre` of already-consumed numbers) stay
duplicate-free and inside the consumed set. -/
theorem autoFold_news (remaining2 : Articles) (threshold : ℚ)
    (articles1 : Articles) (pre : List Int) :
    ∀ (l : List Int) (acc : List MEntry × List Int),
      (pre ++ (matchedOf acc.1).map (fun e => e.new)).Nodup →
      (∀ x ∈ pre ++ (matchedOf acc.1).map (fun e => e.new), x ∈ acc.2) →
      (pre ++ (matchedOf (l.foldl (autoStep remaining2 threshold articles1)
          acc).1).map (fun e => e.new)).Nodup ∧
        ∀ x ∈ pre ++ (matchedOf (l.foldl (autoStep remaining2 threshold
          articles1) acc).1).map (fun e => e.new),
          x ∈ (l.foldl (autoStep remaining2 threshold articles1) acc).2 := by
  intro l
  induction l with
  | nil => intro acc h1 h2; exact ⟨h1, h2⟩
  | cons n ns ih =>
    intro acc h1 h2
    rw [List.foldl_cons]
    rcases autoStep_shape remaining2 threshold articles1 acc n with
      h | ⟨bs, _, hnu, h⟩
    · rw [h]
      have hm : matchedOf (acc.1 ++ [⟨n, -1, 0, MType.nomatch⟩]) =
          matchedOf acc.1 := by
        rw [matchedOf_append]
        have : matchedOf [(⟨n, -1, 0, MType.nomatch⟩ : MEntry)] = [] := by
          simp [matchedOf]
        rw [this, List.append_nil]
      exact ih _ (by rw [hm]; exact h1) (by rw [hm]; exact h2)
    · rw [h]
      have hm : matchedOf (acc.1 ++ [⟨n, bs.1, bs.2, MType.auto⟩]) =
          matchedOf acc.1 ++ [⟨n, bs.1, bs.2, MType.auto⟩] := by
        rw [matchedOf_append]
        have : matchedOf [(⟨n, bs.1, bs.2, MType.auto⟩ : MEntry)] =
            [⟨n, bs.1, bs.2, MType.auto⟩] := by
          simp [matchedOf]
        rw [this]
      refine ih _ ?_ ?_
      · rw [hm, List.map_append, ← List.append_assoc, List.nodup_append]
        refine ⟨h1, by simp, ?_⟩
        intro x hx hxb
        simp only [List.map_cons, List.map_nil, List.mem_singleton] at hxb
        subst hxb
        exact hnu (h2 bs.1 hx)
      · intro x hx
        rw [hm, List.map_append, ← List.append_assoc] at hx
        rcases List.mem_append.mp hx with hx1 | hx2
        · exact List.mem_insert_of_mem (h2 x hx1)
        · simp only [List.map_cons, List.map_nil, List.mem_singleton] at hx2
          subst hx2
          exact List.mem_insert_self _ _

/-- The automatic phase as invoked by `intelligent_article_matching`. -/
def autoPhase (threshold : ℚ) (articles1 articles2 : Articles)
    (used1 used2 : List Int) : List MEntry × List Int :=
  (sortedKeys (keysOf (eligibleIn articles1 used1))).foldl
    (autoStep (eligibleIn articles2 used2) threshold articles1) ([], used2)

/-- Decomposition of `intelligent_article_matching` into its phases. -/
theorem iam_unfold (threshold : ℚ) (manual : List ManualMatch)
    (articles1 articles2 : Articles) :
    intelligent_article_matching threshold manual articles1 articles2 =
      ⟨(manualPhase articles1 articles2 manual).1 ++
          (autoPhase threshold articles1 articles2
            (manualPhase articles1 articles2 manual).2.1
            (manualPhase articles1 articles2 manual).2.2.1).1,
        (sortedKeys (keysOf articles2)).filter
          (fun x => decide (x ∉ (autoPhase threshold articles1 articles2
            (manualPhase articles1 articles2 manual).2.1
            (manualPhase articles1 articles2 manual).2.2.1).2)),
        (autoPhase threshold articles1 articles2
          (manualPhase articles1 articles2 manual).2.1
          (manualPhase articles1 articles2 manual).2.2.1).2,
        (manualPhase articles1 articles2 manual).2.2.2⟩ := rfl

/-! ### Partial bijection of the matched entries -/

theorem keysOf_eligible_sublist (cands : Articles) (used : List Int) :
    (keysOf (eligibleIn cands used)).Sublist (keysOf cands) := by
  unfold keysOf eligibleIn
  exact (List.filter_sublist cands).map (fun p => p.1)

theorem manual_map_olds (a1 a2 : Articles) (ms : List ManualMatch) :
    (ms.map (mkManualEntry a1 a2)).map (fun e => e.old) =
      ms.map (fun mm => mm.old_number) := by
  rw [List.map_map]
  rfl

theorem manual_map_news (a1 a2 : Articles) (ms : List ManualMatch) :
    (ms.map (mkManualEntry a1 a2)).map (fun e => e.new) =
      ms.map (fun mm => mm.new_number) := by
  rw [List.map_map]
  rfl

/-- Under duplicate-free document keys and a manual list repeating no old
and no new number, the matched entries of `intelligent_article_matching`
consume each old number and each new number at most once. -/
theorem matching_partial_bijection (threshold : ℚ) (manual : List ManualMatch)
    (articles1 articles2 : Articles)
    (h1 : (keysOf articles1).Nodup)
    (hmo : (manual.map (fun mm => mm.old_number)).Nodup)
    (hmn : (manual.map (fun mm => mm.new_number)).Nodup) :
    ((matchedOf (intelligent_article_matching threshold manual articles1
        articles2).entries).map (fun e => e.old)).Nodup ∧
      ((matchedOf (intelligent_article_matching threshold manual articles1
        articles2).entries).map (fun e => e.new)).Nodup := by
  obtain ⟨hm1, hm2, hm3, hm4⟩ := manualPhase_spec articles1 articles2 manual
  rw [iam_unfold]
  dsimp only
  rw [matchedOf_append, hm1, matchedOf_manual, List.map_append, List.map_append,
    manual_map_olds, manual_map_news]
  have hfoldO := autoFold_olds
    (eligibleIn articles2 (manualPhase articles1 articles2 manual).2.2.1)
    threshold articles1
    (sortedKeys (keysOf (eligibleIn articles1
      (manualPhase articles1 articles2 manual).2.1)))
    ([], (manualPhase articles1 articles2 manual).2.2.1)
  have hsubO : ((manual.filter (manualOK articles1 articles2)).map
      (fun mm => mm.old_number)).Sublist
      (manual.map (fun mm => mm.old_number)) :=
    (List.filter_sublist manual).map _
  have hsubN : ((manual.filter (manualOK articles1 articles2)).map
      (fun mm => mm.new_number)).Sublist
      (manual.map (fun mm => mm.new_number)) :=
    (List.filter_sublist manual).map _
  constructor
  · -- old numbers
    rw [List.nodup_append]
    refine ⟨hmo.sublist hsubO, ?_, ?_⟩
    · -- auto olds are among the (duplicate-free) remaining old keys
      have hsub2 : ((matchedOf (autoPhase threshold articles1 articles2
          (manualPhase articles1 articles2 manual).2.1
          (manualPhase articles1 articles2 manual).2.2.1).1).map
            (fun e => e.old)).Sublist
          (((autoPhase threshold articles1 articles2
            (manualPhase articles1 articles2 manual).2.1
            (manualPhase articles1 articles2 manual).2.2.1).1).map
              (fun e => e.old)) :=
        (List.filter_sublist _).map _
      have hkeysN : (sortedKeys (keysOf (eligibleIn articles1
          (manualPhase articles1 articles2 manual).2.1))).Nodup := by
        rw [(sortedKeys_perm _).nodup_iff]
        exact h1.sublist (keysOf_eligible_sublist articles1 _)
      have hall : ((autoPhase threshold articles1 articles2
          (manualPhase articles1 articles2 manual).2.1
          (manualPhase articles1 articles2 manual).2.2.1).1).map
            (fun e => e.old) =
          sortedKeys (keysOf (eligibleIn articles1
            (manualPhase articles1 articles2 manual).2.1)) := by
        rw [show (autoPhase threshold articles1 articles2
          (manualPhase articles1 articles2 manual).2.1
          (manualPhase articles1 articles2 manual).2.2.1) =
            (sortedKeys (keysOf (eligibleIn articles1
              (manualPhase articles1 articles2 manual).2.1))).foldl
              (autoStep (eligibleIn articles2
                (manualPhase articles1 articles2 manual).2.2.1)
                threshold articles1)
              ([], (manualPhase articles1 articles2 manual).2.2.1) from rfl]
        rw [hfoldO]
        rfl
      refine List.Nodup.sublist hsub2 ?_
      rw [hall]
      exact hkeysN
    · -- a manual old number is consumed, an auto old number is not
      intro x hxM hxA
      have hx1 : x ∈ (manualPhase articles1 articles2 manual).2.1 :=
        (hm2 x).mpr hxM
      have hxA2 : x ∈ ((autoPhase threshold articles1 articles2
          (manualPhase articles1 articles2 manual).2.1
          (manualPhase articles1 articles2 manual).2.2.1).1).map
            (fun e => e.old) :=
        ((List.filter_sublist _).map _).mem hxA
      rw [show (autoPhase threshold articles1 articles2
        (manualPhase articles1 articles2 manual).2.1
        (manualPhase articles1 articles2 manual).2.2.1) =
          (sortedKeys (keysOf (eligibleIn articles1
            (manualPhase articles1 articles2 manual).2.1))).foldl
            (autoStep (eligibleIn articles2
              (manualPhase articles1 articles2 manual).2.2.1)
              threshold articles1)
            ([], (manualPhase articles1 articles2 manual).2.2.1) from rfl,
        hfoldO] at hxA2
      rw [show List.map (fun e : MEntry => e.old)
        (([], (manualPhase articles1 articles2 manual).2.2.1) :
          List MEntry × List Int).1 = [] from rfl,
        List.nil_append] at hxA2
      have hx2 : x ∈ keysOf (eligibleIn articles1
          (manualPhase articles1 articles2 manual).2.1) :=
        (sortedKeys_perm _).mem_iff.mp hxA2
      exact (keysOf_eligible _ _ _ hx2).2 hx1
  · -- new numbers
    have hinit1 : (((manual.filter (manualOK articles1 articles2)).map
        (fun mm => mm.new_number)) ++
          (matchedOf (([], (manualPhase articles1 articles2
            manual).2.2.1) : List MEntry × List Int).1).map
            (fun e => e.new)).Nodup := by
      rw [show (matchedOf (([], (manualPhase articles1 articles2
        manual).2.2.1) : List MEntry × List Int).1) = [] from rfl]
      rw [List.map_nil, List.append_nil]
      exact hmn.sublist hsubN
    have hinit2 : ∀ x ∈ ((manual.filter (manualOK articles1 articles2)).map
        (fun mm => mm.new_number)) ++
          (matchedOf (([], (manualPhase articles1 articles2
            manual).2.2.1) : List MEntry × List Int).1).map
            (fun e => e.new),
        x ∈ (([], (manualPhase articles1 articles2
          manual).2.2.1) : List MEntry × List Int).2 := by
      intro x hx
      rw [show (matchedOf (([], (manualPhase articles1 articles2
        manual).2.2.1) : List MEntry × List Int).1) = [] from rfl] at hx
      rw [List.map_nil, List.append_nil] at hx
      exact (hm3 x).mpr hx
    have hres := autoFold_news
      (eligibleIn articles2 (manualPhase articles1 articles2 manual).2.2.1)
      threshold articles1
      ((manual.filter (manualOK articles1 articles2)).map
        (fun mm => mm.new_number))
      (sortedKeys (keysOf (eligibleIn articles1
        (manualPhase articles1 articles2 manual).2.1)))
      ([], (manualPhase articles1 articles2 manual).2.2.1)
      hinit1 hinit2
    exact hres.1

/-! ### Fuel-indexed evaluators

The loops defined by well-founded recursion do not reduce inside the
kernel; the following structurally recursive twins take an explicit
recursion budget and are proved equal to the originals whenever the
budget is large enough, so that concrete runs can be checked by
`decide`. -/

def extendLeftF (junkSide : Bool) (junk : Char → Bool) (a b : List Char)
    (alo blo : Nat) : Nat → Nat → Nat → Nat → FLMState
  | 0, bi, bj, bs => ⟨bi, bj, bs⟩
  | fuel + 1, bi, bj, bs =>
    if alo < bi ∧ blo < bj ∧
        junk (b.getD (bj - 1) ' ') = junkSide ∧
        a.getD (bi - 1) ' ' = b.getD (bj - 1) ' ' then
      extendLeftF junkSide junk a b alo blo fuel (bi - 1) (bj - 1) (bs + 1)
    else ⟨bi, bj, bs⟩

theorem extendLeftF_eq (junkSide : Bool) (junk : Char → Bool) (a b : List Char)
    (alo blo : Nat) :
    ∀ (fuel bi bj bs : Nat), bi ≤ fuel →
      extendLeftF junkSide junk a b alo blo fuel bi bj bs =
        extendLeft junkSide junk a b alo blo bi bj bs := by
  intro fuel
  induction fuel with
  | zero =>
    intro bi bj bs hb
    rw [extendLeftF, extendLeft]
    rw [if_neg]
    omega
  | succ fuel ih =>
    intro bi bj bs hb
    rw [extendLeftF, extendLeft]
    by_cases hc : alo < bi ∧ blo < bj ∧
        junk (b.getD (bj - 1) ' ') = junkSide ∧
        a.getD (bi - 1) ' ' = b.getD (bj - 1) ' '
    · rw [if_pos hc, if_pos hc, ih _ _ _ (by omega), extendLeft]
    · rw [if_neg hc, if_neg hc]

def extendRightF (junkSide : Bool) (junk : Char → Bool) (a b : List Char)
    (ahi bhi : Nat) : Nat → Nat → Nat → Nat → FLMState
  | 0, bi, bj, bs => ⟨bi, bj, bs⟩
  | fuel + 1, bi, bj, bs =>
    if bi + bs < ahi ∧ bj + bs < bhi ∧
        junk (b.getD (bj + bs) ' ') = junkSide ∧
        a.getD (bi + bs) ' ' = b.getD (bj + bs) ' ' then
      extendRightF junkSide junk a b ahi bhi fuel bi bj (bs + 1)
    else ⟨bi, bj, bs⟩

theorem extendRightF_eq (junkSide : Bool) (junk : Char → Bool) (a b : List Char)
    (ahi bhi : Nat) :
    ∀ (fuel bi bj bs : Nat), ahi - (bi + bs) ≤ fuel →
      extendRightF junkSide junk a b ahi bhi fuel bi bj bs =
        extendRight junkSide junk a b ahi bhi bi bj bs := by
  intro fuel
  induction fuel with
  | zero =>
    intro bi bj bs hb
    rw [extendRightF, extendRight]
    rw [if_neg]
    omega
  | succ fuel ih =>
    intro bi bj bs hb
    rw [extendRightF, extendRight]
    by_cases hc : bi + bs < ahi ∧ bj + bs < bhi ∧
        junk (b.getD (bj + bs) ' ') = junkSide ∧
        a.getD (bi + bs) ' ' = b.getD (bj + bs) ' '
    · rw [if_pos hc, if_pos hc, ih _ _ _ (by omega), extendRight]
    · rw [if_neg hc, if_neg hc]

def findLongestMatchF (junk : Char → Bool) (a b : List Char)
    (alo ahi blo bhi : Nat) : FLMState :=
  let s0 := (flmMain junk a b alo ahi blo bhi).2
  let s1 := extendLeftF false junk a b alo blo s0.besti s0.besti s0.bestj s0.bestsize
  let s2 := extendRightF false junk a b ahi bhi ahi s1.besti s1.bestj s1.bestsize
  let s3 := extendLeftF true junk a b alo blo s2.besti s2.besti s2.bestj s2.bestsize
  extendRightF true junk a b ahi bhi ahi s3.besti s3.bestj s3.bestsize

theorem findLongestMatchF_eq (junk : Char → Bool) (a b : List Char)
    (alo ahi blo bhi : Nat) :
    findLongestMatchF junk a b alo ahi blo bhi =
      findLongestMatch junk a b alo ahi blo bhi := by
  unfold findLongestMatchF findLongestMatch
  dsimp only
  rw [extendLeftF_eq _ _ _ _ _ _ _ _ _ _ (le_refl _)]
  rw [extendRightF_eq _ _ _ _ _ _ _ _ _ _ (by omega)]
  rw [extendLeftF_eq _ _ _ _ _ _ _ _ _ _ (le_refl _)]
  rw [extendRightF_eq _ _ _ _ _ _ _ _ _ _ (by omega)]

def matchingBlocksRecF (junk : Char → Bool) (a b : List Char) :
    Nat → Nat → Nat → Nat → Nat → List Block
  | 0, _, _, _, _ => []
  | fuel + 1, alo, ahi, blo, bhi =>
    if (findLongestMatchF junk a b alo ahi blo bhi).bestsize = 0 then []
    else
      (if alo < (findLongestMatchF junk a b alo ahi blo bhi).besti ∧
          blo < (findLongestMatchF junk a b alo ahi blo bhi).bestj then
        matchingBlocksRecF junk a b fuel alo
          (findLongestMatchF junk a b alo ahi blo bhi).besti
          blo (findLongestMatchF junk a b alo ahi blo bhi).bestj
      else []) ++
      ⟨(findLongestMatchF junk a b alo ahi blo bhi).besti,
        (findLongestMatchF junk a b alo ahi blo bhi).bestj,
        (findLongestMatchF junk a b alo ahi blo bhi).bestsize⟩ ::
        (if (findLongestMatchF junk a b alo ahi blo bhi).besti +
              (findLongestMatchF junk a b alo ahi blo bhi).bestsize < ahi ∧
            (findLongestMatchF junk a b alo ahi blo bhi).bestj +
              (findLongestMatchF junk a b alo ahi blo bhi).bestsize < bhi then
          matchingBlocksRecF junk a b fuel
            ((findLongestMatchF junk a b alo ahi blo bhi).besti +
              (findLongestMatchF junk a b alo ahi blo bhi).bestsize) ahi
            ((findLongestMatchF junk a b alo ahi blo bhi).bestj +
              (findLongestMatchF junk a b alo ahi blo bhi).bestsize) bhi
        else [])

theorem matchingBlocksRecF_eq (junk : Char → Bool) (a b : List Char) :
    ∀ (fuel alo ahi blo bhi : Nat), ahi - alo + (bhi - blo) < fuel →
      matchingBlocksRecF junk a b fuel alo ahi blo bhi =
        matchingBlocksRec junk a b alo ahi blo bhi := by
  intro fuel
  induction fuel with
  | zero => intro alo ahi blo bhi hn; omega
  | succ fuel ih =>
    intro alo ahi blo bhi hn
    rw [matchingBlocksRec]
    simp only [matchingBlocksRecF]
    rw [findLongestMatchF_eq]
    have hbnd := findLongestMatch_bounds junk a b alo ahi blo bhi
    generalize hF : findLongestMatch junk a b alo ahi blo bhi = F at hbnd ⊢
    by_cases hm : F.bestsize = 0
    · rw [if_pos hm, dif_pos hm]
    · rw [if_neg hm, dif_neg hm]
      have hb := hbnd hm
      by_cases hL : alo < F.besti ∧ blo < F.bestj
      · by_cases hR : F.besti + F.bestsize < ahi ∧ F.bestj + F.bestsize < bhi
        · rw [if_pos hL, if_pos hL, if_pos hR, if_pos hR,
            ih _ _ _ _ (by omega), ih _ _ _ _ (by omega)]
        · rw [if_pos hL, if_pos hL, if_neg hR, if_neg hR, ih _ _ _ _ (by omega)]
      · by_cases hR : F.besti + F.bestsize < ahi ∧ F.bestj + F.bestsize < bhi
        · rw [if_neg hL, if_neg hL, if_pos hR, if_pos hR, ih _ _ _ _ (by omega)]
        · rw [if_neg hL, if_neg hL, if_neg hR, if_neg hR]

def getMatchingBlocksF (junk : Char → Bool) (a b : List Char) : List Block :=
  mergeAdjacent 0 0 0
      (pySort blockLE
        (matchingBlocksRecF junk a b (a.length + b.length + 1) 0 a.length
          0 b.length)) ++
    [⟨a.length, b.length, 0⟩]

theorem getMatchingBlocksF_eq (junk : Char → Bool) (a b : List Char) :
    getMatchingBlocksF junk a b = getMatchingBlocks junk a b := by
  unfold getMatchingBlocksF getMatchingBlocks
  rw [matchingBlocksRecF_eq]
  omega

/-- Structurally evaluable form of `calculate_similarity`. -/
def calculate_similarityF (t1 t2 : PyStr) : ℚ :=
  if t1 = [] ∨ t2 = [] then 0
  else
    calcRatio (((getMatchingBlocksF noJunk t1 t2).map (fun blk => blk.size)).sum)
      (t1.length + t2.length)

theorem calculate_similarity_eval (t1 t2 : PyStr) :
    calculate_similarity t1 t2 = calculate_similarityF t1 t2 := by
  unfold calculate_similarity calculate_similarityF smRatio totalMatched
  rw [getMatchingBlocksF_eq]

/-! ### Behaviour of punctuation normalization -/

theorem replaceChar_self (s : PyStr) (c : Char) : replaceChar s c [c] = s := by
  induction s with
  | nil => rfl
  | cons x xs ih =>
    unfold replaceChar at *
    rw [List.flatMap_cons, ih]
    by_cases hx : x = c
    · subst hx
      simp
    · rw [if_neg hx]
      simp

/-- The character map carried out by the replacement loop. -/
def pmChar (c : Char) : Char :=
  punctuationMap.foldl (fun d p => if d = p.1 then p.2 else d) c

theorem foldl_replace_map : ∀ (ms : List (Char × Char)) (t : PyStr),
    ms.foldl (fun s p => s.map (fun c => if c = p.1 then p.2 else c)) t =
      t.map (fun c => ms.foldl (fun d p => if d = p.1 then p.2 else d) c) := by
  intro ms
  induction ms with
  | nil => intro t; simp
  | cons m ms ih =>
    intro t
    rw [List.foldl_cons, ih, List.map_map]
    rfl

theorem applyPunctuationMap_eq (t : PyStr) :
    applyPunctuationMap t = t.map pmChar := by
  unfold applyPunctuationMap pmChar
  exact foldl_replace_map punctuationMap t

theorem foldl_char_skip :
    ∀ (ms : List (Char × Char)) (d : Char), (∀ p ∈ ms, d ≠ p.1) →
      ms.foldl (fun d p => if d = p.1 then p.2 else d) d = d := by
  intro ms
  induction ms with
  | nil => intro d _; rfl
  | cons m ms ih =>
    intro d hd
    rw [List.foldl_cons, if_neg (hd m (List.mem_cons_self m ms))]
    exact ih d (fun p hp => hd p (List.mem_cons_of_mem m hp))

set_option maxRecDepth 40000 in
/-- The replacement map is idempotent on characters and cannot introduce
or remove whitespace. -/
theorem pmChar_fix (c : Char) :
    pmChar (pmChar c) = pmChar c ∧ isPyWs (pmChar c) = isPyWs c := by
  by_cases h1 : c = ','
  · subst h1; exact ⟨by decide, by decide⟩
  by_cases h2 : c = '.'
  · subst h2; exact ⟨by decide, by decide⟩
  by_cases h3 : c = ';'
  · subst h3; exact ⟨by decide, by decide⟩
  by_cases h4 : c = ':'
  · subst h4; exact ⟨by decide, by decide⟩
  by_cases h5 : c = '?'
  · subst h5; exact ⟨by decide, by decide⟩
  by_cases h6 : c = '!'
  · subst h6; exact ⟨by decide, by decide⟩
  by_cases h7 : c = '('
  · subst h7; exact ⟨by decide, by decide⟩
  by_cases h8 : c = ')'
  · subst h8; exact ⟨by decide, by decide⟩
  by_cases h9 : c = '['
  · subst h9; exact ⟨by decide, by decide⟩
  by_cases h10 : c = ']'
  · subst h10; exact ⟨by decide, by decide⟩
  by_cases h11 : c = '\x7b'
  · subst h11; exact ⟨by decide, by decide⟩
  by_cases h12 : c = '\x7d'
  · subst h12; exact ⟨by decide, by decide⟩
  by_cases h13 : c = '<'
  · subst h13; exact ⟨by decide, by decide⟩
  by_cases h14 : c = '>'
  · subst h14; exact ⟨by decide, by decide⟩
  by_cases h15 : c = '«'
  · subst h15; exact ⟨by decide, by decide⟩
  by_cases h16 : c = '»'
  · subst h16; exact ⟨by decide, by decide⟩
  by_cases h17 : c = '\x22'
  · subst h17; exact ⟨by decide, by decide⟩
  by_cases h18 : c = '\x27'
  · subst h18; exact ⟨by decide, by decide⟩
  have hc : pmChar c = c := by
    unfold pmChar
    refine foldl_char_skip punctuationMap c ?_
    intro p hp
    fin_cases hp <;> assumption
  refine ⟨?_, ?_⟩
  · rw [hc, hc]
  · rw [hc]

theorem takeWhile_drop_eq (p : Char → Bool) :
    ∀ l : PyStr, l.takeWhile p ++ l.drop (l.takeWhile p).length = l := by
  intro l
  induction l with
  | nil => rfl
  | cons c cs ih =>
    rw [List.takeWhile_cons]
    by_cases hp : p c = true
    · rw [if_pos hp]
      simp only [List.length_cons, List.drop_succ_cons, List.cons_append,
        List.cons.injEq]
      exact ⟨trivial, ih⟩
    · rw [if_neg hp]
      simp

/-- On whitespace-free text the digit-period restoration never fires. -/
theorem subNumPeriod_wsfree :
    ∀ (n : Nat) (t : PyStr), t.length ≤ n →
      (∀ c ∈ t, isPyWs c = false) → subNumPeriod t = t := by
  intro n
  induction n with
  | zero =>
    intro t ht _
    have : t = [] := List.length_eq_zero.mp (by omega)
    subst this
    rw [subNumPeriod]
  | succ n ih =>
    intro t ht hws
    match t with
    | [] => rw [subNumPeriod]
    | c :: cs =>
      rw [subNumPeriod]
      by_cases hdig : c.isDigit = true
      · rw [dif_pos hdig]
        dsimp only
        have hds : 1 ≤ ((c :: cs).takeWhile (fun d => d.isDigit)).length := by
          simp [List.takeWhile_cons, hdig]
        have hsplit := takeWhile_drop_eq (fun d => d.isDigit) (c :: cs)
        split
        · next w rest2 heq =>
          have hwmem : w ∈ c :: cs := by
            have : w ∈ (c :: cs).drop
                ((c :: cs).takeWhile (fun d => d.isDigit)).length := by
              rw [heq]
              simp
            exact List.mem_of_mem_drop this
          rw [if_neg (by rw [hws w hwmem]; simp)]
          have hlen := congrArg List.length heq
          simp only [List.length_drop, List.length_cons] at hlen
          rw [ih ('。' :: w :: rest2) (by
              simp only [List.length_cons] at ht ⊢
              omega)
            (fun x hx => hws x (by
              have : x ∈ (c :: cs).drop
                  ((c :: cs).takeWhile (fun d => d.isDigit)).length := by
                rw [heq]
                exact hx
              exact List.mem_of_mem_drop this))]
          rw [← heq]
          exact hsplit
        · next hne =>
          rw [ih ((c :: cs).drop ((c :: cs).takeWhile (fun d => d.isDigit)).length)
              (by
                simp only [List.length_drop, List.length_cons] at ht ⊢
                omega)
            (fun x hx => hws x (List.mem_of_mem_drop hx))]
          exact hsplit
      · rw [dif_neg hdig]
        rw [ih cs (by simp only [List.length_cons] at ht; omega)
          (fun x hx => hws x (List.mem_cons_of_mem c hx))]

theorem dropWhile_wsfree (l : PyStr) (h : ∀ c ∈ l, isPyWs c = false) :
    l.dropWhile isPyWs = l := by
  cases l with
  | nil => rfl
  | cons c cs =>
    rw [List.dropWhile_cons, h c (List.mem_cons_self c cs)]
    simp

theorem pstrip_wsfree (t : PyStr) (h : ∀ c ∈ t, isPyWs c = false) :
    pstrip t = t := by
  unfold pstrip
  rw [dropWhile_wsfree t h,
    dropWhile_wsfree t.reverse (fun c hc => h c (List.mem_reverse.mp hc)),
    List.reverse_reverse]

theorem cleanSpaces_wsfree (t : PyStr) (h : ∀ c ∈ t, isPyWs c = false) :
    cleanSpaces t = t := by
  unfold cleanSpaces
  have hf : t.filter (fun c => !isPyWs c) = t :=
    List.filter_eq_self.mpr (fun a ha => by rw [h a ha]; rfl)
  rw [hf, pstrip_wsfree t h]

set_option maxHeartbeats 1000000 in
/-- On whitespace-free input, normalization is exactly the character
map of the replacement loop. -/
theorem normalize_punctuation_wsfree (t : PyStr)
    (h : ∀ c ∈ t, isPyWs c = false) :
    normalize_punctuation t = t.map pmChar := by
  unfold normalize_punctuation
  by_cases h0 : t = []
  · subst h0
    rw [if_pos rfl]
    rfl
  · rw [if_neg h0, applyPunctuationMap_eq, replaceChar_self]
    have hws2 : ∀ c ∈ t.map pmChar, isPyWs c = false := by
      intro c hc
      rcases List.mem_map.mp hc with ⟨x, hx, rfl⟩
      rw [(pmChar_fix x).2]
      exact h x hx
    rw [subNumPeriod_wsfree (t.map pmChar).length _ (le_refl _) hws2,
      cleanSpaces_wsfree _ hws2]

theorem map_pmChar_idem :
    ∀ t : PyStr, List.map pmChar (List.map pmChar t) = List.map pmChar t := by
  intro t
  induction t with
  | nil => rfl
  | cons c cs ih =>
    rw [List.map_cons, List.map_cons, ih, (pmChar_fix c).1]

theorem normalize_punctuation_idem_wsfree (t : PyStr)
    (h : ∀ c ∈ t, isPyWs c = false) :
    normalize_punctuation (normalize_punctuation t) =
      normalize_punctuation t := by
  rw [normalize_punctuation_wsfree t h]
  have hws2 : ∀ c ∈ t.map pmChar, isPyWs c = false := by
    intro c hc
    rcases List.mem_map.mp hc with ⟨x, hx, rfl⟩
    rw [(pmChar_fix x).2]
    exact h x hx
  rw [normalize_punctuation_wsfree _ hws2]
  exact map_pmChar_idem t

set_option maxRecDepth 40000 in
/-- The concrete run refuting idempotence on general input. -/
theorem subNumPeriod_ex :
    subNumPeriod ['1', '。', ' ', 'a'] = ['1', '.', ' ', ' ', 'a'] := by
  have d1 : '1'.isDigit = true := by decide
  have w1 : isPyWs ' ' = true := by decide
  rw [subNumPeriod, dif_pos d1]
  dsimp only
  split
  · next w rest2 heq =>
    rw [show List.drop (List.takeWhile (fun d => d.isDigit)
      ['1', '。', ' ', 'a']).length ['1', '。', ' ', 'a'] = ['。', ' ', 'a']
      from by decide] at heq
    simp only [List.cons.injEq] at heq
    obtain ⟨hw, hr⟩ := heq.2
    subst hw
    subst hr
    rw [if_pos w1, subNumPeriod, dif_neg (by decide), subNumPeriod]
    decide
  · next hne =>
    exact absurd (by decide) (hne ' ' ['a'])

set_option maxRecDepth 40000 in
theorem normalize_ex1 :
    normalize_punctuation ['1', '.', ' ', 'a'] = ['1', '.', 'a'] := by
  unfold normalize_punctuation
  rw [if_neg (by decide)]
  rw [show replaceChar (applyPunctuationMap ['1', '.', ' ', 'a'])
    '\x22' ['\x22'] = ['1', '。', ' ', 'a'] from by decide]
  rw [subNumPeriod_ex]
  decide

set_option maxRecDepth 40000 in
theorem normalize_ex2 :
    normalize_punctuation ['1', '.', 'a'] = ['1', '。', 'a'] := by
  rw [normalize_punctuation_wsfree ['1', '.', 'a'] (by decide)]
  decide

/-! ### Line-break repair: the no-terminal-punctuation merge rule -/

theorem should_merge_no_terminal (cur nxt : PyStr)
    (h1 : lastIn cur punctClass = false)
    (h2 : headIn nxt startMarkers = false)
    (h3 : matchesEnum nxt = false) :
    should_merge_lines cur nxt = true := by
  have ht : lastIn cur terminalPunct = false := by
    cases hl : cur.getLast? with
    | none =>
      unfold lastIn
      rw [hl]
    | some c =>
      unfold lastIn at h1 ⊢
      rw [hl] at h1 ⊢
      simp only [decide_eq_false_iff_not] at h1 ⊢
      intro hc
      exact h1 (by fin_cases hc <;> decide)
  simp [should_merge_lines, ht, h2, h3, h1]

theorem fix_pdf_ex :
    fix_pdf_line_breaks
        (['机', '动', '车', '驾', '驶', '人', '应', '当'] ++ '\n' ::
          ['遵', '守', '交', '通', '信', '号', '。']) =
      ['机', '动', '车', '驾', '驶', '人', '应', '当'] ++
        ['遵', '守', '交', '通', '信', '号', '。'] := by
  unfold fix_pdf_line_breaks
  rw [if_neg (by decide)]
  rw [show splitNL (['机', '动', '车', '驾', '驶', '人', '应', '当'] ++ '\n' ::
      ['遵', '守', '交', '通', '信', '号', '。']) =
    [['机', '动', '车', '驾', '驶', '人', '应', '当'],
     ['遵', '守', '交', '通', '信', '号', '。']] from by decide]
  rw [fixLines]
  rw [if_neg (by decide)]
  rw [show mergeFrom (pstrip ['机', '动', '车', '驾', '驶', '人', '应', '当'])
      [['遵', '守', '交', '通', '信', '号', '。']] =
    (['机', '动', '车', '驾', '驶', '人', '应', '当'] ++
      ['遵', '守', '交', '通', '信', '号', '。'], []) from by decide]
  rw [fixLines]
  decide

/-! ### Unrecognized numeral input -/

theorem parseComplexAux_unrec :
    ∀ (s : List Char), (∀ c ∈ s, baseLookup c = none) →
      ∀ r t i, parseComplexAux r t i s = if 0 < r + t then r + t else 0 := by
  intro s
  induction s with
  | nil => intro _ r t i; rfl
  | cons c cs ih =>
    intro h r t i
    have hc := h c (List.mem_cons_self c cs)
    simp only [parseComplexAux, hc]
    exact ih (fun x hx => h x (List.mem_cons_of_mem c hx)) r t (i + 1)

theorem convert_unrecognized (s : List Char)
    (h : ∀ c ∈ s, baseLookup c = none) : convert_chinese_number s = 0 := by
  match s with
  | [] => rfl
  | [c] =>
    show (match baseLookup c with
      | some v => v
      | none => parseComplexAux 0 0 0 [c]) = 0
    rw [h c (List.mem_cons_self c [])]
    show parseComplexAux 0 0 0 [c] = 0
    rw [parseComplexAux_unrec [c] h 0 0 0]
    rfl
  | c1 :: c2 :: rest =>
    show parseComplexAux 0 0 0 (c1 :: c2 :: rest) = 0
    rw [parseComplexAux_unrec (c1 :: c2 :: rest) h 0 0 0]
    rfl

/-! ### Characterisation of compare_articles -/

/-- The record appended to `identical`. -/
def idRec (law1 : Law) (e : MEntry) : IdenticalRec :=
  ⟨e.old, e.new, contentOf law1.articles e.old, e.sim, e.mtype⟩

/-- The record appended to `modified` (with its unified-diff payload). -/
def modRec (law1 law2 : Law) (e : MEntry) : ModifiedRec :=
  ⟨e.old, e.new, contentOf law1.articles e.old, contentOf law2.articles e.new,
    e.sim, e.mtype,
    chapterInfoOf law1.chapters law1.sections (getArticle law1.articles e.old),
    chapterInfoOf law2.chapters law2.sections (getArticle law2.articles e.new),
    generate_unified_html_diff (contentOf law1.articles e.old)
      (contentOf law2.articles e.new)⟩

/-- The record appended to `deleted`. -/
def delRec (law1 : Law) (e : MEntry) : SingleRec :=
  ⟨e.old, contentOf law1.articles e.old,
    chapterInfoOf law1.chapters law1.sections (getArticle law1.articles e.old)⟩

def isDel (e : MEntry) : Bool := e.new = -1

def isId (e : MEntry) : Bool :=
  !(decide (e.new = -1)) && decide ((49 : ℚ) / 50 ≤ e.sim)

def isMod (e : MEntry) : Bool :=
  !(decide (e.new = -1)) && !(decide ((49 : ℚ) / 50 ≤ e.sim))

theorem compFold_spec (law1 law2 : Law) :
    ∀ (E : List MEntry)
      (acc : List IdenticalRec × List ModifiedRec × List SingleRec ×
        List (Int × Int)),
      (E.foldl (compStep law1 law2) acc).1 =
          acc.1 ++ (E.filter isId).map (idRec law1) ∧
        (E.foldl (compStep law1 law2) acc).2.1 =
          acc.2.1 ++ (E.filter isMod).map (modRec law1 law2) ∧
        (E.foldl (compStep law1 law2) acc).2.2.1 =
          acc.2.2.1 ++ (E.filter isDel).map (delRec law1) ∧
        (E.foldl (compStep law1 law2) acc).2.2.2 =
          acc.2.2.2 ++ (E.filter (fun e => !(isDel e))).map
            (fun e => (e.old, e.new)) := by
  intro E
  induction E with
  | nil =>
    intro acc
    refine ⟨by simp, by simp, by simp, by simp⟩
  | cons e E ih =>
    intro acc
    rw [List.foldl_cons]
    by_cases he : e.new = -1
    · have hstep : compStep law1 law2 acc e =
          (acc.1, acc.2.1, acc.2.2.1 ++ [delRec law1 e], acc.2.2.2) := by
        unfold compStep
        rw [if_pos he]
        rfl
      rw [hstep]
      obtain ⟨ih1, ih2, ih3, ih4⟩ := ih _
      rw [List.filter_cons_of_neg (by simp [isId, he]),
        List.filter_cons_of_neg (by simp [isMod, he]),
        List.filter_cons_of_pos (by simp [isDel, he]),
        List.filter_cons_of_neg (by simp [isDel, he])]
      refine ⟨ih1, ih2, ?_, ih4⟩
      rw [ih3]
      simp
    · by_cases hs : (49 : ℚ) / 50 ≤ e.sim
      · have hstep : compStep law1 law2 acc e =
            (acc.1 ++ [idRec law1 e], acc.2.1, acc.2.2.1,
              acc.2.2.2 ++ [(e.old, e.new)]) := by
          unfold compStep
          rw [if_neg he]
          dsimp only
          rw [if_pos hs]
          rfl
        rw [hstep]
        obtain ⟨ih1, ih2, ih3, ih4⟩ := ih _
        rw [List.filter_cons_of_pos (by simp [isId, he, hs]),
          List.filter_cons_of_neg (by simp [isMod, he, hs]),
          List.filter_cons_of_neg (by simp [isDel, he]),
          List.filter_cons_of_pos (by simp [isDel, he])]
        refine ⟨?_, ih2, ih3, ?_⟩
        · rw [ih1]
          simp
        · rw [ih4]
          simp
      · have hstep : compStep law1 law2 acc e =
            (acc.1, acc.2.1 ++ [modRec law1 law2 e], acc.2.2.1,
              acc.2.2.2 ++ [(e.old, e.new)]) := by
          unfold compStep
          rw [if_neg he]
          dsimp only
          rw [if_neg hs]
          rfl
        rw [hstep]
        obtain ⟨ih1, ih2, ih3, ih4⟩ := ih _
        rw [List.filter_cons_of_neg (by simp [isId, he, hs]),
          List.filter_cons_of_pos (by simp [isMod, he, hs]),
          List.filter_cons_of_neg (by simp [isDel, he]),
          List.filter_cons_of_pos (by simp [isDel, he])]
        refine ⟨ih1, ?_, ih3, ?_⟩
        · rw [ih2]
          simp
        · rw [ih4]
          simp

theorem compare_identical_eq (threshold : ℚ) (manual : List ManualMatch)
    (law1 law2 : Law) :
    (compare_articles threshold manual law1 law2).identical =
      pySort leOldId
        ((((intelligent_article_matching threshold manual law1.articles
          law2.articles).entries).filter isId).map (idRec law1)) := by
  show pySort leOldId
      (((intelligent_article_matching threshold manual law1.articles
        law2.articles).entries.foldl (compStep law1 law2) ([], [], [], [])).1) =
    _
  rw [(compFold_spec law1 law2 _ _).1, List.nil_append]

theorem compare_modified_eq (threshold : ℚ) (manual : List ManualMatch)
    (law1 law2 : Law) :
    (compare_articles threshold manual law1 law2).modified =
      pySort leOldMod
        ((((intelligent_article_matching threshold manual law1.articles
          law2.articles).entries).filter isMod).map (modRec law1 law2)) := by
  show pySort leOldMod
      (((intelligent_article_matching threshold manual law1.articles
        law2.articles).entries.foldl (compStep law1 law2)
        ([], [], [], [])).2.1) = _
  rw [(compFold_spec law1 law2 _ _).2.1, List.nil_append]

theorem compare_deleted_eq (threshold : ℚ) (manual : List ManualMatch)
    (law1 law2 : Law) :
    (compare_articles threshold manual law1 law2).deleted =
      pySort leNum
        ((((intelligent_article_matching threshold manual law1.articles
          law2.articles).entries).filter isDel).map (delRec law1)) := by
  show pySort leNum
      (((intelligent_article_matching threshold manual law1.articles
        law2.articles).entries.foldl (compStep law1 law2)
        ([], [], [], [])).2.2.1) = _
  rw [(compFold_spec law1 law2 _ _).2.2.1, List.nil_append]

theorem compare_newList_eq (threshold : ℚ) (manual : List ManualMatch)
    (law1 law2 : Law) :
    (compare_articles threshold manual law1 law2).newList =
      pySort leNum
        ((intelligent_article_matching threshold manual law1.articles
          law2.articles).newArticles.map
          (fun n => ⟨n, contentOf law2.articles n,
            chapterInfoOf law2.chapters law2.sections
              (getArticle law2.articles n)⟩)) := rfl

/-! ### Matched entries carry an existing new number -/

theorem hasKey_mem (d : Articles) (n : Int) (h : hasKey d n = true) :
    n ∈ keysOf d := by
  unfold hasKey at h
  rw [Option.isSome_iff_exists] at h
  obtain ⟨p, hp⟩ := h
  have hmem := List.mem_of_find?_eq_some hp
  have hpr := List.find?_some hp
  simp only [decide_eq_true_eq] at hpr
  exact List.mem_map.mpr ⟨p, hmem, hpr⟩

theorem autoFold_entries (remaining2 : Articles) (threshold : ℚ)
    (articles1 : Articles) :
    ∀ (l : List Int) (acc : List MEntry × List Int),
      (∀ e ∈ acc.1, (e.mtype = MType.nomatch → e.new = -1) ∧
        (e.mtype ≠ MType.nomatch → e.new ∈ keysOf remaining2)) →
      ∀ e ∈ (l.foldl (autoStep remaining2 threshold articles1) acc).1,
        (e.mtype = MType.nomatch → e.new = -1) ∧
        (e.mtype ≠ MType.nomatch → e.new ∈ keysOf remaining2) := by
  intro l
  induction l with
  | nil => intro acc hacc; exact hacc
  | cons n ns ih =>
    intro acc hacc
    rw [List.foldl_cons]
    rcases autoStep_shape remaining2 threshold articles1 acc n with
      h | ⟨bs, hky, _, h⟩ <;> rw [h] <;> refine ih _ ?_ <;> intro e hme <;>
      rcases List.mem_append.mp hme with hin | hone
    · exact hacc e hin
    · rcases List.mem_singleton.mp hone with rfl
      exact ⟨fun _ => rfl, fun hx => absurd rfl hx⟩
    · exact hacc e hin
    · rcases List.mem_singleton.mp hone with rfl
      exact ⟨fun hx => by simp at hx, fun _ => hky⟩

/-- Every entry of the alignment is either an unmatched record with new
number `-1`, or a matched (`manual`/`auto`) record whose new number is a
key of the new document. -/
theorem entries_matched_new (threshold : ℚ) (manual : List ManualMatch)
    (articles1 articles2 : Articles) :
    ∀ e ∈ (intelligent_article_matching threshold manual articles1
        articles2).entries,
      (e.mtype = MType.nomatch → e.new = -1) ∧
      (e.mtype ≠ MType.nomatch → e.new ∈ keysOf articles2) := by
  intro e he
  rw [iam_unfold] at he
  rcases List.mem_append.mp he with hm | ha
  · obtain ⟨hm1, _, _, _⟩ := manualPhase_spec articles1 articles2 manual
    rw [hm1] at hm
    rcases List.mem_map.mp hm with ⟨mm, hmm, rfl⟩
    have hok := List.of_mem_filter hmm
    rw [manualOK, Bool.and_eq_true] at hok
    constructor
    · intro hx
      exact absurd hx (by simp [mkManualEntry])
    · intro _
      exact hasKey_mem _ _ hok.2
  · have hstart : ∀ e ∈ (([], (manualPhase articles1 articles2
        manual).2.2.1) : List MEntry × List Int).1,
        (e.mtype = MType.nomatch → e.new = -1) ∧
        (e.mtype ≠ MType.nomatch → e.new ∈ keysOf (eligibleIn articles2
          (manualPhase articles1 articles2 manual).2.2.1)) := by
      intro e he2
      cases he2
    have hres := autoFold_entries
      (eligibleIn articles2 (manualPhase articles1 articles2 manual).2.2.1)
      threshold articles1
      (sortedKeys (keysOf (eligibleIn articles1
        (manualPhase articles1 articles2 manual).2.1)))
      ([], (manualPhase articles1 articles2 manual).2.2.1) hstart e ha
    refine ⟨hres.1, fun hx => ?_⟩
    exact (keysOf_eligible_sublist articles2 _).mem (hres.2 hx)

/-! ### The manual phase as the spec words it -/

/-- Reference manual step following the spec's wording: a pair is
recorded only when both numbers exist and neither is already consumed. -/
def specManualStep (articles1 articles2 : Articles)
    (acc : List MEntry × List Int × List Int × Nat) (mm : ManualMatch) :
    List MEntry × List Int × List Int × Nat :=
  if hasKey articles1 mm.old_number ∧ hasKey articles2 mm.new_number ∧
      mm.old_number ∉ acc.2.1 ∧ mm.new_number ∉ acc.2.2.1 then
    (acc.1 ++ [mkManualEntry articles1 articles2 mm],
      acc.2.1.insert mm.old_number, acc.2.2.1.insert mm.new_number,
      acc.2.2.2 + 1)
  else acc

/-- The whole manual phase under the spec's wording. -/
def specManualPhase (articles1 articles2 : Articles)
    (manual : List ManualMatch) : List MEntry × List Int × List Int × Nat :=
  manual.foldl (specManualStep articles1 articles2) ([], [], [], 0)

/-! ### Concrete similarity values for the boundary scenarios -/

/-- 79 distinct CJK characters: the common prefix of the 0.79 pair. -/
def bdryP : PyStr := (List.range 79).map (fun i => Char.ofNat (0x4E00 + i))

def bdryQ : PyStr := (List.range 21).map (fun i => Char.ofNat (0x4F00 + i))

def bdryR : PyStr := (List.range 21).map (fun i => Char.ofNat (0x5000 + i))

def bdryS : PyStr := (List.range 50).map (fun i => Char.ofNat (0x5100 + i))

/-- The new article's content (100 characters). -/
def bdryB1 : PyStr := bdryP ++ bdryQ

/-- An old content with exactly 79 of 100 characters in common with
`bdryB1`: similarity `2·79/200 = 0.79`. -/
def bdryA1 : PyStr := bdryP ++ bdryR

/-- An old content (150 characters) containing `bdryB1` wholly:
similarity `2·100/250 = 0.80`. -/
def bdryA2 : PyStr := bdryB1 ++ bdryS

set_option maxRecDepth 100000 in
theorem bdry_sim1 : calculate_similarity bdryA1 bdryB1 = 79 / 100 := by
  rw [calculate_similarity_eval]
  unfold calculate_similarityF
  rw [if_neg (by decide)]
  rw [show ((getMatchingBlocksF noJunk bdryA1 bdryB1).map
    (fun blk => blk.size)).sum = 79 from by decide]
  rw [show bdryA1.length + bdryB1.length = 200 from by decide]
  norm_num [calcRatio]

set_option maxRecDepth 100000 in
theorem bdry_sim2 : calculate_similarity bdryA2 bdryB1 = 4 / 5 := by
  rw [calculate_similarity_eval]
  unfold calculate_similarityF
  rw [if_neg (by decide)]
  rw [show ((getMatchingBlocksF noJunk bdryA2 bdryB1).map
    (fun blk => blk.size)).sum = 100 from by decide]
  rw [show bdryA2.length + bdryB1.length = 250 from by decide]
  norm_num [calcRatio]

set_option maxRecDepth 40000 in
theorem sim_self_a : calculate_similarity ['a'] ['a'] = 1 := by
  rw [calculate_similarity_eval]
  unfold calculate_similarityF
  rw [if_neg (by decide)]
  rw [show ((getMatchingBlocksF noJunk ['a'] ['a']).map
    (fun blk => blk.size)).sum = 1 from by decide]
  rw [show (['a'] : PyStr).length + (['a'] : PyStr).length = 2 from by decide]
  norm_num [calcRatio]

set_option maxRecDepth 40000 in
theorem sim_asym1 :
    calculate_similarity ['a', 'b'] ['b', 'a', 'c', 'b'] = 2 / 3 := by
  rw [calculate_similarity_eval]
  unfold calculate_similarityF
  rw [if_neg (by decide)]
  rw [show ((getMatchingBlocksF noJunk ['a', 'b'] ['b', 'a', 'c', 'b']).map
    (fun blk => blk.size)).sum = 2 from by decide]
  rw [show (['a', 'b'] : PyStr).length +
    (['b', 'a', 'c', 'b'] : PyStr).length = 6 from by decide]
  norm_num [calcRatio]

set_option maxRecDepth 40000 in
theorem sim_asym2 :
    calculate_similarity ['b', 'a', 'c', 'b'] ['a', 'b'] = 1 / 3 := by
  rw [calculate_similarity_eval]
  unfold calculate_similarityF
  rw [if_neg (by decide)]
  rw [show ((getMatchingBlocksF noJunk ['b', 'a', 'c', 'b'] ['a', 'b']).map
    (fun blk => blk.size)).sum = 1 from by decide]
  rw [show (['b', 'a', 'c', 'b'] : PyStr).length +
    (['a', 'b'] : PyStr).length = 6 from by decide]
  norm_num [calcRatio]

/-! ## The claims -/

/-- C1 (amended): across all matched entries (manual and auto combined)
of `intelligent_article_matching`, no old article number and no new
article number appears twice, provided the old document's keys are
duplicate-free (Python dict keys always are) and the manual-match list
repeats no old number and no new number.  Without the manual-list
proviso the property fails (`C1_duplicate_manual_pair`). -/
theorem C1_alignment_partial_bijection (threshold : ℚ)
    (manual : List ManualMatch) (articles1 articles2 : Articles)
    (h1 : (keysOf articles1).Nodup)
    (hmo : (manual.map (fun mm => mm.old_number)).Nodup)
    (hmn : (manual.map (fun mm => mm.new_number)).Nodup) :
    ((matchedOf (intelligent_article_matching threshold manual articles1
        articles2).entries).map (fun e => e.old)).Nodup ∧
      ((matchedOf (intelligent_article_matching threshold manual articles1
        articles2).entries).map (fun e => e.new)).Nodup :=
  matching_partial_bijection threshold manual articles1 articles2 h1 hmo hmn

/-- Witness for C1: a concrete run with one manual pair. -/
theorem C1_alignment_partial_bijection_check :
    ((keysOf [((1 : Int), (⟨[], none, none⟩ : Article))]).Nodup) ∧
      ((([⟨1, 2⟩] : List ManualMatch).map (fun mm => mm.old_number)).Nodup) ∧
      ((([⟨1, 2⟩] : List ManualMatch).map (fun mm => mm.new_number)).Nodup) ∧
      ((matchedOf (intelligent_article_matching (4 / 5) [⟨1, 2⟩]
          [((1 : Int), (⟨[], none, none⟩ : Article))]
          [((2 : Int), (⟨[], none, none⟩ : Article))]).entries).map
        (fun e => e.old)).Nodup ∧
      ((matchedOf (intelligent_article_matching (4 / 5) [⟨1, 2⟩]
          [((1 : Int), (⟨[], none, none⟩ : Article))]
          [((2 : Int), (⟨[], none, none⟩ : Article))]).entries).map
        (fun e => e.new)).Nodup :=
  ⟨by decide, by decide, by decide,
    (C1_alignment_partial_bijection (4 / 5) [⟨1, 2⟩]
      [((1 : Int), (⟨[], none, none⟩ : Article))]
      [((2 : Int), (⟨[], none, none⟩ : Article))]
      (by decide) (by decide) (by decide)).1,
    (C1_alignment_partial_bijection (4 / 5) [⟨1, 2⟩]
      [((1 : Int), (⟨[], none, none⟩ : Article))]
      [((2 : Int), (⟨[], none, none⟩ : Article))]
      (by decide) (by decide) (by decide)).2⟩

set_option maxRecDepth 40000 in
/-- Counterexample to C1 as frozen: with the manual list `[(1,1), (1,2)]`
(old number 1 referenced twice) both pairs are recorded, so old number 1
appears in two matched entries. -/
theorem C1_duplicate_manual_pair :
    ¬ (((matchedOf (intelligent_article_matching (4 / 5) [⟨1, 1⟩, ⟨1, 2⟩]
        [((1 : Int), (⟨[], none, none⟩ : Article))]
        [((1 : Int), (⟨[], none, none⟩ : Article)),
         ((2 : Int), (⟨[], none, none⟩ : Article))]).entries).map
          (fun e => e.old)).Nodup) := by decide

/-- C2 (amended): the manual phase records a pair exactly when both
referenced numbers exist in their documents — prior consumption is NOT
checked; a pair referencing a missing article is skipped and changes
nothing.  The recorded entries, the consumed sets and the count are
exactly those of the accepted pairs. -/
theorem C2_manual_phase_existence :
    ∀ (articles1 articles2 : Articles) (manual : List ManualMatch),
      (manualPhase articles1 articles2 manual).1 =
          (manual.filter (manualOK articles1 articles2)).map
            (mkManualEntry articles1 articles2) ∧
        (∀ x : Int, x ∈ (manualPhase articles1 articles2 manual).2.1 ↔
          x ∈ (manual.filter (manualOK articles1 articles2)).map
            (fun mm => mm.old_number)) ∧
        (∀ x : Int, x ∈ (manualPhase articles1 articles2 manual).2.2.1 ↔
          x ∈ (manual.filter (manualOK articles1 articles2)).map
            (fun mm => mm.new_number)) ∧
        (manualPhase articles1 articles2 manual).2.2.2 =
          (manual.filter (manualOK articles1 articles2)).length :=
  fun a1 a2 m => manualPhase_spec a1 a2 m

set_option maxRecDepth 40000 in
/-- Counterexample to C2 as frozen: old number 1 is consumed by the pair
`(1,1)`, yet the later pair `(1,2)` is recorded too — the code records
two entries where the spec's consumption check would record one
(`specManualPhase` follows the spec's wording). -/
theorem C2_reconsumed_number :
    ((manualPhase [((1 : Int), (⟨[], none, none⟩ : Article))]
        [((1 : Int), (⟨[], none, none⟩ : Article)),
         ((2 : Int), (⟨[], none, none⟩ : Article))]
        [⟨1, 1⟩, ⟨1, 2⟩]).1.map (fun e => e.old) = [1, 1]) ∧
      ((specManualPhase [((1 : Int), (⟨[], none, none⟩ : Article))]
        [((1 : Int), (⟨[], none, none⟩ : Article)),
         ((2 : Int), (⟨[], none, none⟩ : Article))]
        [⟨1, 1⟩, ⟨1, 2⟩]).1.map (fun e => e.old) = [1]) := by decide

/-- C3 (amended): punctuation normalization is idempotent on
whitespace-free input (in particular on all its own outputs of a
whitespace-free source).  On input containing whitespace it is not
idempotent (`C3_not_idempotent`): the digit-period restoration re-exposes
an ASCII period that a second pass converts to `。`. -/
theorem C3_normalize_idempotent_wsfree (t : PyStr)
    (h : ∀ c ∈ t, isPyWs c = false) :
    normalize_punctuation (normalize_punctuation t) =
      normalize_punctuation t :=
  normalize_punctuation_idem_wsfree t h

/-- Witness for C3 on the whitespace-free input `"1.a"`. -/
theorem C3_normalize_idempotent_wsfree_check :
    (∀ c ∈ (['1', '.', 'a'] : PyStr), isPyWs c = false) ∧
      normalize_punctuation (normalize_punctuation ['1', '.', 'a']) =
        normalize_punctuation ['1', '.', 'a'] :=
  ⟨by decide, C3_normalize_idempotent_wsfree ['1', '.', 'a'] (by decide)⟩

/-- Counterexample to C3 as frozen: `normalize_punctuation "1. a"`
yields `"1.a"`, and normalizing again yields `"1。a"`. -/
theorem C3_not_idempotent :
    normalize_punctuation (normalize_punctuation ['1', '.', ' ', 'a']) ≠
      normalize_punctuation ['1', '.', ' ', 'a'] := by
  rw [normalize_ex1, normalize_ex2]
  decide

/-- C4 (amended): the automatic phase iterates the remaining old numbers
sorted ascending, and each step follows the amended selection rule
(`specAutoStep`): the maximum similarity over the still-unconsumed
candidates, attained first in candidate-dict order, is selected provided
it is positive; at or above the threshold it is recorded and consumed,
otherwise the old article is recorded unmatched.  As frozen the claim
fails at a zero threshold (`C4_zero_threshold`), and the tie-break is the
candidate dict's insertion order, not the number order. -/
theorem C4_automatic_selection (remaining2 : Articles) (threshold : ℚ)
    (articles1 : Articles) (l : List Int) (acc : List MEntry × List Int)
    (hkeys : ∀ k ∈ keysOf remaining2, (0 : Int) ≤ k) :
    List.Sorted (fun x y : Int => x ≤ y) (sortedKeys l) ∧
      (sortedKeys l).Perm l ∧
      (sortedKeys l).foldl (autoStep remaining2 threshold articles1) acc =
        (sortedKeys l).foldl (specAutoStep remaining2 threshold articles1)
          acc :=
  ⟨sortedKeys_sorted l, sortedKeys_perm l,
    autoFold_eq_spec remaining2 threshold articles1 hkeys (sortedKeys l) acc⟩

/-- Witness for C4 at a concrete remaining set and key list. -/
theorem C4_automatic_selection_check :
    (∀ k ∈ keysOf [((5 : Int), (⟨[], none, none⟩ : Article))],
        (0 : Int) ≤ k) ∧
      List.Sorted (fun x y : Int => x ≤ y) (sortedKeys [2, 1]) ∧
      (sortedKeys [2, 1]).Perm [2, 1] ∧
      (sortedKeys [2, 1]).foldl
          (autoStep [((5 : Int), (⟨[], none, none⟩ : Article))] (4 / 5)
            [((1 : Int), (⟨[], none, none⟩ : Article))]) ([], []) =
        (sortedKeys [2, 1]).foldl
          (specAutoStep [((5 : Int), (⟨[], none, none⟩ : Article))] (4 / 5)
            [((1 : Int), (⟨[], none, none⟩ : Article))]) ([], []) :=
  ⟨by decide,
    (C4_automatic_selection [((5 : Int), (⟨[], none, none⟩ : Article))]
      (4 / 5) [((1 : Int), (⟨[], none, none⟩ : Article))] [2, 1] ([], [])
      (by decide)).1,
    (C4_automatic_selection [((5 : Int), (⟨[], none, none⟩ : Article))]
      (4 / 5) [((1 : Int), (⟨[], none, none⟩ : Article))] [2, 1] ([], [])
      (by decide)).2.1,
    (C4_automatic_selection [((5 : Int), (⟨[], none, none⟩ : Article))]
      (4 / 5) [((1 : Int), (⟨[], none, none⟩ : Article))] [2, 1] ([], [])
      (by decide)).2.2⟩

set_option maxRecDepth 40000 in
/-- Counterexample to C4 as frozen, covering both deviations.  First,
with threshold `0`, the maximum candidate similarity (0, against an empty
candidate content) meets the threshold, yet the old article is recorded
unmatched — the code demands a strict improvement over `0.0` before it
considers any candidate.  Second, with the candidate dict holding numbers
in insertion order `[2, 1]` and both candidates attaining the same
maximal similarity 1, the recorded new number is 2, the first in
insertion order — not 1, which the frozen "new document's number order"
tie-break would select. -/
theorem C4_selection_deviations :
    ((0 : ℚ) ≤ maxSim
        (contentOf [((1 : Int), (⟨['a'], none, none⟩ : Article))] 1)
        (eligibleIn [((5 : Int), (⟨[], none, none⟩ : Article))] []) ∧
      (intelligent_article_matching 0 []
        [((1 : Int), (⟨['a'], none, none⟩ : Article))]
        [((5 : Int), (⟨[], none, none⟩ : Article))]).entries.map
          (fun e => (e.old, e.new, e.mtype)) =
        [(1, -1, MType.nomatch)]) ∧
      simTo ['a'] ((1 : Int), (⟨['a'], none, none⟩ : Article)) =
        simTo ['a'] ((2 : Int), (⟨['a'], none, none⟩ : Article)) ∧
      (intelligent_article_matching (4 / 5) []
        [((1 : Int), (⟨['a'], none, none⟩ : Article))]
        [((2 : Int), (⟨['a'], none, none⟩ : Article)),
         ((1 : Int), (⟨['a'], none, none⟩ : Article))]).entries =
        [⟨1, 2, 1, MType.auto⟩] := by
  refine ⟨by decide, rfl, ?_⟩
  have hb : find_best_match ['a']
      [((2 : Int), (⟨['a'], none, none⟩ : Article)),
       ((1 : Int), (⟨['a'], none, none⟩ : Article))] [] = (2, 1) := by
    unfold find_best_match
    rw [List.foldl_cons, List.foldl_cons, List.foldl_nil]
    have h1 : fbmStep ['a'] [] (-1, 0)
        ((2 : Int), (⟨['a'], none, none⟩ : Article)) = (2, 1) := by
      show (if (2 : Int) ∈ ([] : List Int) then ((-1 : Int), (0 : ℚ))
        else if (0 : ℚ) < calculate_similarity ['a'] ['a']
          then ((2 : Int), calculate_similarity ['a'] ['a'])
          else (-1, 0)) = (2, 1)
      rw [if_neg (by simp), sim_self_a, if_pos (by norm_num)]
    have h2 : fbmStep ['a'] [] (2, 1)
        ((1 : Int), (⟨['a'], none, none⟩ : Article)) = (2, 1) := by
      show (if (1 : Int) ∈ ([] : List Int) then ((2 : Int), (1 : ℚ))
        else if (1 : ℚ) < calculate_similarity ['a'] ['a']
          then ((1 : Int), calculate_similarity ['a'] ['a'])
          else (2, 1)) = (2, 1)
      rw [if_neg (by simp), sim_self_a, if_neg (by norm_num)]
    rw [h1, h2]
  have hstep : autoStep
      [((2 : Int), (⟨['a'], none, none⟩ : Article)),
       ((1 : Int), (⟨['a'], none, none⟩ : Article))] (4 / 5)
      [((1 : Int), (⟨['a'], none, none⟩ : Article))] ([], []) 1 =
      ([⟨1, 2, 1, MType.auto⟩], [2]) := by
    unfold autoStep
    dsimp only
    rw [show find_best_match (contentOf
        [((1 : Int), (⟨['a'], none, none⟩ : Article))] 1)
        [((2 : Int), (⟨['a'], none, none⟩ : Article)),
         ((1 : Int), (⟨['a'], none, none⟩ : Article))] [] =
        ((2 : Int), (1 : ℚ)) from hb]
    rw [if_pos ⟨by decide, by norm_num⟩]
    rfl
  show [] ++ (List.foldl (autoStep
      [((2 : Int), (⟨['a'], none, none⟩ : Article)),
       ((1 : Int), (⟨['a'], none, none⟩ : Article))] (4 / 5)
      [((1 : Int), (⟨['a'], none, none⟩ : Article))]) ([], []) [1]).1 = _
  rw [List.foldl_cons, hstep, List.foldl_nil]
  rfl

/-- C5: the numeral converter is arithmetically correct on every standard
Chinese numeral up to 9999 (`stdChinese` generates the standard form of
each value), the four quoted examples hold, and empty or fully
unrecognized input converts to 0. -/
theorem C5_convert_correct :
    (∀ n : Nat, 1 ≤ n → n ≤ 9999 →
        convert_chinese_number (stdChinese n) = n) ∧
      convert_chinese_number ['十'] = 10 ∧
      convert_chinese_number ['十', '一'] = 11 ∧
      convert_chinese_number ['二', '十'] = 20 ∧
      convert_chinese_number ['一', '百', '零', '五'] = 105 ∧
      convert_chinese_number [] = 0 ∧
      (∀ s : List Char, (∀ c ∈ s, baseLookup c = none) →
        convert_chinese_number s = 0) :=
  ⟨convert_stdChinese, by decide, by decide, by decide, by decide, rfl,
    convert_unrecognized⟩

/-- C6: with threshold 0.8, an old article whose best candidate stands at
similarity exactly 0.79 is recorded as deleted (new number `-1`) and the
candidate is not consumed; the candidate remains eligible and is matched
by a later old article whose similarity against it is exactly 0.80. -/
theorem C6_threshold_boundary (A1 A2 B1 : PyStr)
    (h79 : calculate_similarity A1 B1 = 79 / 100)
    (h80 : calculate_similarity A2 B1 = 4 / 5) :
    (intelligent_article_matching (4 / 5) []
        [(1, ⟨A1, none, none⟩), (2, ⟨A2, none, none⟩)]
        [(7, ⟨B1, none, none⟩)]).entries =
      [⟨1, -1, 0, MType.nomatch⟩, ⟨2, 7, 4 / 5, MType.auto⟩] ∧
    (intelligent_article_matching (4 / 5) []
        [(1, ⟨A1, none, none⟩), (2, ⟨A2, none, none⟩)]
        [(7, ⟨B1, none, none⟩)]).newArticles = [] ∧
    (intelligent_article_matching (4 / 5) []
        [(1, ⟨A1, none, none⟩), (2, ⟨A2, none, none⟩)]
        [(7, ⟨B1, none, none⟩)]).used2 = [7] := by
  have hb1 : find_best_match A1 [(7, ⟨B1, none, none⟩)] [] =
      (7, 79 / 100) := by
    show fbmStep A1 [] (-1, 0) (7, ⟨B1, none, none⟩) = (7, 79 / 100)
    show (if (7 : Int) ∈ ([] : List Int) then ((-1 : Int), (0 : ℚ))
      else if (0 : ℚ) < calculate_similarity A1 B1
        then ((7 : Int), calculate_similarity A1 B1)
        else (-1, 0)) = (7, 79 / 100)
    rw [if_neg (by simp), h79, if_pos (by norm_num)]
  have hb2 : find_best_match A2 [(7, ⟨B1, none, none⟩)] [] = (7, 4 / 5) := by
    show fbmStep A2 [] (-1, 0) (7, ⟨B1, none, none⟩) = (7, 4 / 5)
    show (if (7 : Int) ∈ ([] : List Int) then ((-1 : Int), (0 : ℚ))
      else if (0 : ℚ) < calculate_similarity A2 B1
        then ((7 : Int), calculate_similarity A2 B1)
        else (-1, 0)) = (7, 4 / 5)
    rw [if_neg (by simp), h80, if_pos (by norm_num)]
  have hstep1 : autoStep [(7, ⟨B1, none, none⟩)] (4 / 5)
      [(1, ⟨A1, none, none⟩), (2, ⟨A2, none, none⟩)] ([], []) 1 =
      ([⟨1, -1, 0, MType.nomatch⟩], []) := by
    unfold autoStep
    dsimp only
    rw [show find_best_match (contentOf
        [(1, ⟨A1, none, none⟩), (2, ⟨A2, none, none⟩)] 1)
        [(7, ⟨B1, none, none⟩)] [] = ((7 : Int), (79 : ℚ) / 100) from hb1]
    rw [if_neg (fun hc => absurd hc.2 (by norm_num))]
    rfl
  have hstep2 : autoStep [(7, ⟨B1, none, none⟩)] (4 / 5)
      [(1, ⟨A1, none, none⟩), (2, ⟨A2, none, none⟩)]
      ([⟨1, -1, 0, MType.nomatch⟩], []) 2 =
      ([⟨1, -1, 0, MType.nomatch⟩, ⟨2, 7, 4 / 5, MType.auto⟩], [7]) := by
    unfold autoStep
    dsimp only
    rw [show find_best_match (contentOf
        [(1, ⟨A1, none, none⟩), (2, ⟨A2, none, none⟩)] 2)
        [(7, ⟨B1, none, none⟩)] [] = ((7 : Int), (4 : ℚ) / 5) from hb2]
    rw [if_pos ⟨by decide, by norm_num⟩]
    rfl
  have hfold : List.foldl (autoStep [(7, ⟨B1, none, none⟩)] (4 / 5)
      [(1, ⟨A1, none, none⟩), (2, ⟨A2, none, none⟩)]) ([], []) [1, 2] =
      ([⟨1, -1, 0, MType.nomatch⟩, ⟨2, 7, 4 / 5, MType.auto⟩], [7]) := by
    rw [List.foldl_cons, hstep1, List.foldl_cons, hstep2, List.foldl_nil]
  refine ⟨?_, ?_, ?_⟩
  · show [] ++ (List.foldl (autoStep [(7, ⟨B1, none, none⟩)] (4 / 5)
      [(1, ⟨A1, none, none⟩), (2, ⟨A2, none, none⟩)]) ([], []) [1, 2]).1 = _
    rw [hfold]
    rfl
  · show (([7] : List Int).filter (fun n => decide (n ∉
      (List.foldl (autoStep [(7, ⟨B1, none, none⟩)] (4 / 5)
        [(1, ⟨A1, none, none⟩), (2, ⟨A2, none, none⟩)]) ([], [])
        [1, 2]).2))) = []
    rw [hfold]
    decide
  · show (List.foldl (autoStep [(7, ⟨B1, none, none⟩)] (4 / 5)
      [(1, ⟨A1, none, none⟩), (2, ⟨A2, none, none⟩)]) ([], []) [1, 2]).2 = [7]
    rw [hfold]

/-- Witness for C6: concrete 100/150-character contents realizing the
similarities 0.79 and 0.80 exactly. -/
theorem C6_threshold_boundary_check :
    calculate_similarity bdryA1 bdryB1 = 79 / 100 ∧
      calculate_similarity bdryA2 bdryB1 = 4 / 5 ∧
      (intelligent_article_matching (4 / 5) []
          [(1, ⟨bdryA1, none, none⟩), (2, ⟨bdryA2, none, none⟩)]
          [(7, ⟨bdryB1, none, none⟩)]).entries =
        [⟨1, -1, 0, MType.nomatch⟩, ⟨2, 7, 4 / 5, MType.auto⟩] ∧
      (intelligent_article_matching (4 / 5) []
          [(1, ⟨bdryA1, none, none⟩), (2, ⟨bdryA2, none, none⟩)]
          [(7, ⟨bdryB1, none, none⟩)]).newArticles = [] ∧
      (intelligent_article_matching (4 / 5) []
          [(1, ⟨bdryA1, none, none⟩), (2, ⟨bdryA2, none, none⟩)]
          [(7, ⟨bdryB1, none, none⟩)]).used2 = [7] :=
  ⟨bdry_sim1, bdry_sim2,
    (C6_threshold_boundary bdryA1 bdryA2 bdryB1 bdry_sim1 bdry_sim2).1,
    (C6_threshold_boundary bdryA1 bdryA2 bdryB1 bdry_sim1 bdry_sim2).2.1,
    (C6_threshold_boundary bdryA1 bdryA2 bdryB1 bdry_sim1 bdry_sim2).2.2⟩

/-- C7 (amended): `calculate_similarity` lies in `[0,1]` and is `0` when
either input is empty, but it is NOT symmetric: the greedy
longest-matching-block recursion depends on the argument order, so
swapping the arguments can change the ratio (`C7_asymmetric`). -/
theorem C7_similarity_properties :
    (∀ a b : PyStr, 0 ≤ calculate_similarity a b ∧
        calculate_similarity a b ≤ 1 ∧
        ((a = [] ∨ b = []) → calculate_similarity a b = 0)) ∧
      ∃ a b : PyStr, calculate_similarity a b ≠ calculate_similarity b a := by
  constructor
  · intro a b
    refine ⟨calculate_similarity_nonneg a b, calculate_similarity_le_one a b,
      ?_⟩
    intro h
    unfold calculate_similarity
    rw [if_pos h]
  · exact ⟨['a', 'b'], ['b', 'a', 'c', 'b'],
      by rw [sim_asym1, sim_asym2]; norm_num⟩

/-- Counterexample to C7's symmetry as frozen:
`ratio("ab", "bacb") = 2/3` but `ratio("bacb", "ab") = 1/3`. -/
theorem C7_asymmetric :
    calculate_similarity ['a', 'b'] ['b', 'a', 'c', 'b'] = 2 / 3 ∧
      calculate_similarity ['b', 'a', 'c', 'b'] ['a', 'b'] = 1 / 3 ∧
      calculate_similarity ['a', 'b'] ['b', 'a', 'c', 'b'] ≠
        calculate_similarity ['b', 'a', 'c', 'b'] ['a', 'b'] :=
  ⟨sim_asym1, sim_asym2, by rw [sim_asym1, sim_asym2]; norm_num⟩

/-- C8: in a comparison of two parsed documents (whose article numbers,
being parsed, are never `-1`), the matched entries (manual or auto) are
exactly those with a recorded new number; a matched entry is classified
`identical` exactly when its similarity is at least 0.98 and `modified`
otherwise, and every modified record carries the character-level unified
diff of the two contents. -/
theorem C8_identical_iff (threshold : ℚ) (manual : List ManualMatch)
    (law1 law2 : Law) (hkey : (-1 : Int) ∉ keysOf law2.articles) :
    (∀ e ∈ (intelligent_article_matching threshold manual law1.articles
        law2.articles).entries, (e.mtype ≠ MType.nomatch ↔ e.new ≠ -1)) ∧
      (∀ e ∈ (intelligent_article_matching threshold manual law1.articles
          law2.articles).entries, e.new ≠ -1 →
        ((49 : ℚ) / 50 ≤ e.sim → idRec law1 e ∈
          (compare_articles threshold manual law1 law2).identical) ∧
        (¬ (49 : ℚ) / 50 ≤ e.sim → modRec law1 law2 e ∈
          (compare_articles threshold manual law1 law2).modified)) ∧
      (∀ r ∈ (compare_articles threshold manual law1 law2).identical,
        (49 : ℚ) / 50 ≤ r.similarity) ∧
      (∀ r ∈ (compare_articles threshold manual law1 law2).modified,
        ¬ (49 : ℚ) / 50 ≤ r.similarity ∧
          r.unified_diff_html = generate_unified_html_diff
            (contentOf law1.articles r.old_number)
            (contentOf law2.articles r.new_number)) := by
  refine ⟨?_, ?_, ?_, ?_⟩
  · intro e he
    obtain ⟨h1, h2⟩ := entries_matched_new threshold manual law1.articles
      law2.articles e he
    constructor
    · intro hm hEq
      exact hkey (hEq ▸ h2 hm)
    · intro hne hm
      exact hne (h1 hm)
  · intro e he hne
    constructor
    · intro hs
      rw [compare_identical_eq]
      refine (pySort_perm _ _).mem_iff.mpr ?_
      exact List.mem_map.mpr ⟨e, List.mem_filter.mpr ⟨he,
        by simp [isId, hne, hs]⟩, rfl⟩
    · intro hs
      rw [compare_modified_eq]
      refine (pySort_perm _ _).mem_iff.mpr ?_
      exact List.mem_map.mpr ⟨e, List.mem_filter.mpr ⟨he,
        by simp [isMod, hne, hs]⟩, rfl⟩
  · intro r hr
    rw [compare_identical_eq] at hr
    rcases List.mem_map.mp ((pySort_perm _ _).mem_iff.mp hr) with ⟨e, hef, rfl⟩
    have hflt := List.of_mem_filter hef
    simp only [isId, Bool.and_eq_true, Bool.not_eq_true',
      decide_eq_false_iff_not, decide_eq_true_eq] at hflt
    exact hflt.2
  · intro r hr
    rw [compare_modified_eq] at hr
    rcases List.mem_map.mp ((pySort_perm _ _).mem_iff.mp hr) with ⟨e, hef, rfl⟩
    have hflt := List.of_mem_filter hef
    simp only [isMod, Bool.and_eq_true, Bool.not_eq_true',
      decide_eq_false_iff_not, decide_eq_true_eq] at hflt
    exact ⟨hflt.2, rfl⟩

/-- Witness for C8 on a concrete pair of one-article documents. -/
theorem C8_identical_iff_check :
    ((-1 : Int) ∉ keysOf
        ((⟨[((2 : Int), (⟨[], none, none⟩ : Article))], [], []⟩ :
          Law)).articles) ∧
      ∀ r ∈ (compare_articles (4 / 5) []
          (⟨[((1 : Int), (⟨[], none, none⟩ : Article))], [], []⟩ : Law)
          (⟨[((2 : Int), (⟨[], none, none⟩ : Article))], [], []⟩ :
            Law)).identical,
        (49 : ℚ) / 50 ≤ r.similarity :=
  ⟨by decide,
    (C8_identical_iff (4 / 5) []
      (⟨[((1 : Int), (⟨[], none, none⟩ : Article))], [], []⟩ : Law)
      (⟨[((2 : Int), (⟨[], none, none⟩ : Article))], [], []⟩ : Law)
      (by decide)).2.2.1⟩

/-- C9: line-break repair merges a line into the next when it does not
end in a punctuation character, provided the next line starts with no
structural marker and no parenthesised enumerator; in particular the two
quoted lines merge into one. -/
theorem C9_line_break_repair :
    (∀ cur nxt : PyStr, lastIn cur punctClass = false →
        headIn nxt startMarkers = false → matchesEnum nxt = false →
        should_merge_lines cur nxt = true) ∧
      fix_pdf_line_breaks
          (['机', '动', '车', '驾', '驶', '人', '应', '当'] ++ '\n' ::
            ['遵', '守', '交', '通', '信', '号', '。']) =
        ['机', '动', '车', '驾', '驶', '人', '应', '当'] ++
          ['遵', '守', '交', '通', '信', '号', '。'] :=
  ⟨should_merge_no_terminal, fix_pdf_ex⟩

/-- C10: the identical and modified lists of every comparison result are
sorted ascending by old article number, and the new and deleted lists
ascending by article number. -/
theorem C10_sorted_outputs (threshold : ℚ) (manual : List ManualMatch)
    (law1 law2 : Law) :
    List.Sorted (fun a b : IdenticalRec => a.old_number ≤ b.old_number)
        (compare_articles threshold manual law1 law2).identical ∧
      List.Sorted (fun a b : ModifiedRec => a.old_number ≤ b.old_number)
        (compare_articles threshold manual law1 law2).modified ∧
      List.Sorted (fun a b : SingleRec => a.article_number ≤ b.article_number)
        (compare_articles threshold manual law1 law2).newList ∧
      List.Sorted (fun a b : SingleRec => a.article_number ≤ b.article_number)
        (compare_articles threshold manual law1 law2).deleted := by
  have hnumtot : ∀ x y : SingleRec, leNum x y = true ∨ leNum y x = true := by
    intro x y
    rcases le_total x.article_number y.article_number with h | h
    · left; simpa [leNum] using h
    · right; simpa [leNum] using h
  have hnumtrans : ∀ x y z : SingleRec, leNum x y = true →
      leNum y z = true → leNum x z = true := by
    intro x y z hxy hyz
    simp only [leNum, decide_eq_true_eq] at hxy hyz ⊢
    exact le_trans hxy hyz
  refine ⟨?_, ?_, ?_, ?_⟩
  · rw [compare_identical_eq]
    refine List.Pairwise.imp (fun h => by simpa [leOldId] using h)
      (pySort_sorted leOldId ?_ ?_ _)
    · intro x y
      rcases le_total x.old_number y.old_number with h | h
      · left; simpa [leOldId] using h
      · right; simpa [leOldId] using h
    · intro x y z hxy hyz
      simp only [leOldId, decide_eq_true_eq] at hxy hyz ⊢
      exact le_trans hxy hyz
  · rw [compare_modified_eq]
    refine List.Pairwise.imp (fun h => by simpa [leOldMod] using h)
      (pySort_sorted leOldMod ?_ ?_ _)
    · intro x y
      rcases le_total x.old_number y.old_number with h | h
      · left; simpa [leOldMod] using h
      · right; simpa [leOldMod] using h
    · intro x y z hxy hyz
      simp only [leOldMod, decide_eq_true_eq] at hxy hyz ⊢
      exact le_trans hxy hyz
  · rw [compare_newList_eq]
    exact List.Pairwise.imp (fun h => by simpa [leNum] using h)
      (pySort_sorted leNum hnumtot hnumtrans _)
  · rw [compare_deleted_eq]
    exact List.Pairwise.imp (fun h => by simpa [leNum] using h)
      (pySort_sorted leNum hnumtot hnumtrans _)

end LawRepo